import Mathlib

/-!
Shallow embedding of the RESP streaming parser from `protocol/redis/resp.go`.

The Go parser is a stack machine whose frames are closures; here every closure
is represented by a `FrameCode` constructor carrying exactly the state the
closure captures, and one execution of a closure is the function `stepTopW`.
Dynamic `interface` result slots become the closed tagged union `RValue`
(`vnil` is Go's nil interface value).

The byte source `reader.Reader` is not part of this repository's sources.
Modelled from the spec: a buffered source with `ReadLine` (bytes up to the
first CRLF, terminator consumed; needs-more-data if no terminator buffered),
`ReadN` (exactly n bytes, consumed, on success; on a shortfall the buffered
bytes are returned unconsumed with a short-read error), `Discard n` (advance
past n bytes, recording a pending skip for bytes not yet delivered), and
feeding of newly arrived chunks.

Go runtime panics (failed type assertions, `make` with negative capacity)
are modelled as the fatal outcome `RErr.PanicErr`.
-/

/-! Basic list facts used for the byte-source algebra. -/

/-! Byte-source algebra: delivery of extra chunks commutes with all of the
source operations the parser performs. -/

/-! Single-step execution lemmas on symbolic states, one per closure branch.
These drive the end-to-end parse correctness proof. -/

/-- Decoded RESP value: the closed union of everything the Go parser stores in
an `interface` result slot. `vnil` is Go's nil (absent bulk); `vint`
is both a decoded integer and the length-only record of an oversized bulk;
`vstr`/`verr` are status and error lines; `vbytes` a captured bulk payload;
`varr` an array accumulator or result. Bytes are modelled as `Nat`. -/
inductive RValue : Type where
  | vnil : RValue
  | vint : Int → RValue
  | vstr : List Nat → RValue
  | verr : List Nat → RValue
  | vbytes : List Nat → RValue
  | varr : List RValue → RValue
  deriving Repr

/-- Byte source state: currently buffered bytes plus the count of future bytes
already scheduled to be skipped by `Discard` calls that outran the buffer. -/
structure Rdr : Type where
  buf : List Nat
  pending : Nat
  deriving Repr, DecidableEq

/-- Deliver a chunk of newly arrived bytes to the source; bytes owed to an
earlier oversized `Discard` are swallowed first. -/
def Rdr.feed (r : Rdr) (e : List Nat) : Rdr :=
  if e.length ≤ r.pending then ⟨r.buf, r.pending - e.length⟩
  else ⟨r.buf ++ e.drop r.pending, 0⟩

/-- Advance the source past `n` bytes; bytes beyond the buffer are recorded as
pending and swallowed from future chunks. -/
def Rdr.Discard (r : Rdr) (n : Nat) : Rdr :=
  ⟨r.buf.drop n, r.pending + (n - min n r.buf.length)⟩

/-- Read exactly `n` bytes, consuming them; on a shortfall return the buffered
bytes without consuming them (the caller discards what it copies out). -/
def Rdr.ReadN (r : Rdr) (n : Nat) : Except (List Nat) (List Nat × Rdr) :=
  if n ≤ r.buf.length then .ok (r.buf.take n, ⟨r.buf.drop n, r.pending⟩)
  else .error r.buf

/-- Index of the first CRLF pair in a byte list, if any. -/
def findCRLF : List Nat → Option Nat
  | [] => none
  | [_] => none
  | a :: b :: t =>
    if a = 13 ∧ b = 10 then some 0 else (findCRLF (b :: t)).map (· + 1)

/-- Read one line: the bytes before the first CRLF, consuming them and the
terminator; `none` when no full terminator is buffered yet. -/
def Rdr.ReadLine (r : Rdr) : Option (List Nat × Rdr) :=
  match findCRLF r.buf with
  | none => none
  | some k => some (r.buf.take k, ⟨r.buf.drop (k + 2), r.pending⟩)

/-- Decimal digit run value: `digitsAux t acc` folds digits onto `acc`,
failing on any non-digit byte. -/
def digitsAux : List Nat → Nat → Option Nat
  | [], acc => some acc
  | c :: t, acc =>
    if 48 ≤ c ∧ c ≤ 57 then digitsAux t (acc * 10 + (c - 48)) else none

/-- Value of a nonempty all-digit byte list, `none` otherwise. -/
def digitsVal : List Nat → Option Nat
  | [] => none
  | l => digitsAux l 0

/-- Largest value of Go's 64-bit `int`. -/
def int64max : Nat := 9223372036854775807

/-- Go's `strconv.Atoi` on the bytes of a line: optional sign, at least one
digit, within the 64-bit signed range; `none` is the strconv error. -/
def goAtoi (s : List Nat) : Option Int :=
  match s with
  | [] => none
  | c :: t =>
    if c = 43 then
      match digitsVal t with
      | some v => if v ≤ int64max then some ((v : Int)) else none
      | none => none
    else if c = 45 then
      match digitsVal t with
      | some v => if v ≤ int64max + 1 then some (-(v : Int)) else none
      | none => none
    else
      match digitsVal (c :: t) with
      | some v => if v ≤ int64max then some ((v : Int)) else none
      | none => none

/-- Recursion guard constant `stackLimit` from the source. -/
def stackLimit : Nat := 8

/-- Code of a stack frame: which Go closure the frame holds, together with the
state that closure captured (`parseBulkN` captures its accumulator and the
remaining byte count, `parseNArrayFields` the remaining field count,
`parseSimpleString` its error flag). `root` is the dummy result-holding
frame at the bottom of the stack. -/
inductive FrameCode : Type where
  | root : FrameCode
  | parseValue : FrameCode
  | parseSimpleString : Bool → FrameCode
  | parseInt : FrameCode
  | parseBulk : FrameCode
  | parseBulkN : List Nat → Nat → FrameCode
  | parseArray : FrameCode
  | parseNArrayFields : Int → FrameCode
  deriving Repr, DecidableEq

/-- One stack frame: resumable code plus the result slot. -/
structure stackFrame : Type where
  code : FrameCode
  result : RValue
  deriving Repr

/-- Parser state: the frame stack (head of the list is the top of the stack),
the byte source, and the configured bulk capture limit. -/
structure RespParser : Type where
  stack : List stackFrame
  rdr : Rdr
  BulkCaptureLimit : Int
  deriving Repr

/-- Errors surfaced by one step of the machine. `ErrShortRead` and
`NeedMoreData` are the resumable byte-starvation signals; `AtoiErr` is the
strconv error returned for a non-numeric integer or length line;
`PanicErr` models a Go runtime panic. -/
inductive RErr : Type where
  | ErrShortRead : RErr
  | NeedMoreData : RErr
  | ProtocolErr : RErr
  | RecursionLimitErr : RErr
  | AtoiErr : RErr
  | PanicErr : RErr
  deriving Repr, DecidableEq

/-- Resumable errors: the caller may feed more bytes and call run again. -/
def RErr.resumable : RErr → Prop
  | .ErrShortRead => True
  | .NeedMoreData => True
  | _ => False

instance : DecidablePred RErr.resumable := by
  intro e; unfold RErr.resumable; cases e <;> infer_instance

/-- Result of one step: the machine continues from the new state, or the
run loop returns an error, leaving the recorded state behind. -/
inductive StepRes : Type where
  | ok : RespParser → StepRes
  | fail : RErr → RespParser → StepRes
  deriving Repr

/-- A write to the result slot of the frame at depth `d` (the frame is the
top of a stack of length `d`): either by `pop` of the frame above it, or the
direct accumulator store in `startParseArray`. -/
inductive WEv : Type where
  | viaPop : Nat → RValue → WEv
  | directWrite : Nat → RValue → WEv
  deriving Repr

/-- The five RESP type tags of the dispatch switch in `startParseValue`. -/
inductive Tag : Type where
  | status : Tag
  | err : Tag
  | int : Tag
  | bulk : Tag
  | arr : Tag
  deriving Repr, DecidableEq

/-- Classify a tag byte; `none` is the protocol-violating default case. -/
def tagOf (c : Nat) : Option Tag :=
  if c = 43 then some .status
  else if c = 45 then some .err
  else if c = 58 then some .int
  else if c = 36 then some .bulk
  else if c = 42 then some .arr
  else none

/-- Overwrite the result slot of the top frame of a stack (the effect of the
Go assignments `p.stack[len(p.stack)-1].result = ...` and of `pop` on the
frame left at the top). -/
def setTopResult (s : List stackFrame) (v : RValue) : List stackFrame :=
  match s with
  | [] => []
  | f :: t => ⟨f.code, v⟩ :: t

/-- One invocation of the closure in the top stack frame, with the trace of
result-slot writes it performs. Each branch transcribes the corresponding
closure body from `resp.go`. -/
def stepTopW (p : RespParser) : StepRes × List WEv :=
  match p.stack with
  | [] => (.fail .PanicErr p, [])
  | fr :: below =>
    match fr.code with
    | .root => (.fail .PanicErr p, [])
    | .parseValue =>
      if stackLimit < p.stack.length then (.fail .RecursionLimitErr p, [])
      else
        match p.rdr.ReadN 1 with
        | .error _ => (.fail .ErrShortRead p, [])
        | .ok (out, r1) =>
          match below with
          | [] => (.fail .PanicErr p, [])
          | _ :: _ =>
            let below1 := setTopResult below .vnil
            let ev := [WEv.viaPop below.length .vnil]
            match tagOf (out.headD 0) with
            | some .status =>
              (.ok ⟨⟨.parseSimpleString false, .vnil⟩ :: below1, r1, p.BulkCaptureLimit⟩, ev)
            | some .err =>
              (.ok ⟨⟨.parseSimpleString true, .vnil⟩ :: below1, r1, p.BulkCaptureLimit⟩, ev)
            | some .int =>
              (.ok ⟨⟨.parseInt, .vnil⟩ :: below1, r1, p.BulkCaptureLimit⟩, ev)
            | some .bulk =>
              (.ok ⟨⟨.parseInt, .vnil⟩ :: ⟨.parseBulk, .vnil⟩ :: below1, r1, p.BulkCaptureLimit⟩, ev)
            | some .arr =>
              (.ok ⟨⟨.parseInt, .vnil⟩ :: ⟨.parseArray, .vnil⟩ :: below1, r1, p.BulkCaptureLimit⟩, ev)
            | none =>
              (.fail .ProtocolErr ⟨below1, r1, p.BulkCaptureLimit⟩, ev)
    | .parseSimpleString asError =>
      match p.rdr.ReadLine with
      | none => (.fail .NeedMoreData p, [])
      | some (l, r1) =>
        match below with
        | [] => (.fail .PanicErr p, [])
        | _ :: _ =>
          let v := if asError then RValue.verr l else RValue.vstr l
          (.ok ⟨setTopResult below v, r1, p.BulkCaptureLimit⟩, [.viaPop below.length v])
    | .parseInt =>
      match p.rdr.ReadLine with
      | none => (.fail .NeedMoreData p, [])
      | some (l, r1) =>
        match goAtoi l with
        | none => (.fail .AtoiErr ⟨p.stack, r1, p.BulkCaptureLimit⟩, [])
        | some i =>
          match below with
          | [] => (.fail .PanicErr p, [])
          | _ :: _ =>
            (.ok ⟨setTopResult below (.vint i), r1, p.BulkCaptureLimit⟩,
             [.viaPop below.length (.vint i)])
    | .parseBulk =>
      match fr.result with
      | .vint n =>
        match below with
        | [] => (.fail .PanicErr p, [])
        | _ :: _ =>
          if n < 0 then
            (.ok ⟨setTopResult below .vnil, p.rdr, p.BulkCaptureLimit⟩,
             [.viaPop below.length .vnil])
          else if n ≤ p.BulkCaptureLimit then
            (.ok ⟨⟨.parseBulkN [] n.toNat, .vnil⟩ :: setTopResult below .vnil,
              p.rdr, p.BulkCaptureLimit⟩, [.viaPop below.length .vnil])
          else
            (.ok ⟨setTopResult below (.vint n), p.rdr.Discard (n + 2).toNat,
              p.BulkCaptureLimit⟩, [.viaPop below.length (.vint n)])
      | _ => (.fail .PanicErr p, [])
    | .parseBulkN accum n =>
      match p.rdr.ReadN n with
      | .ok (out, r1) =>
        match below with
        | [] => (.fail .PanicErr p, [])
        | _ :: _ =>
          (.ok ⟨setTopResult below (.vbytes (accum ++ out)), r1.Discard 2,
            p.BulkCaptureLimit⟩, [.viaPop below.length (.vbytes (accum ++ out))])
      | .error out =>
        match below with
        | [] => (.fail .PanicErr p, [])
        | _ :: _ =>
          (.fail .ErrShortRead
            ⟨⟨.parseBulkN (accum ++ out) (n - out.length), .vnil⟩ :: setTopResult below .vnil,
             p.rdr.Discard out.length, p.BulkCaptureLimit⟩,
           [.viaPop below.length .vnil])
    | .parseArray =>
      match fr.result with
      | .vint n =>
        match below with
        | [] => (.fail .PanicErr p, [])
        | _ :: _ =>
          if n < 0 then
            (.fail .PanicErr p, [.viaPop below.length .vnil])
          else
            (.ok ⟨⟨.parseValue, .vnil⟩ :: ⟨.parseNArrayFields n, .vnil⟩ ::
                setTopResult below (.varr []), p.rdr, p.BulkCaptureLimit⟩,
             [.viaPop below.length .vnil, .directWrite below.length (.varr [])])
      | _ => (.fail .PanicErr p, [])
    | .parseNArrayFields n =>
      match below with
      | [] => (.fail .PanicErr p, [])
      | bf :: bt =>
        match bf.result with
        | .varr xs =>
          let res := RValue.varr (xs ++ [fr.result])
          if 1 < n then
            (.ok ⟨⟨.parseValue, .vnil⟩ :: ⟨.parseNArrayFields (n - 1), .vnil⟩ ::
                ⟨bf.code, res⟩ :: bt, p.rdr, p.BulkCaptureLimit⟩,
             [.viaPop below.length res])
          else
            (.ok ⟨⟨bf.code, res⟩ :: bt, p.rdr, p.BulkCaptureLimit⟩,
             [.viaPop below.length res])
        | _ => (.fail .PanicErr p, [])

/-- One step of the machine, without the write trace. -/
def stepTop (p : RespParser) : StepRes := (stepTopW p).1

/-- Outcome of driving the run loop with bounded fuel. -/
inductive ROut : Type where
  | done : RespParser → ROut
  | err : RErr → RespParser → ROut
  | out : ROut
  deriving Repr

/-- The run loop `Run` with fuel: invoke the top frame until only the root
frame remains or a step reports an error. -/
def runF : Nat → RespParser → ROut
  | fuel, p =>
    if p.stack.length = 1 then .done p
    else
      match fuel with
      | 0 => .out
      | fuel + 1 =>
        match stepTop p with
        | .ok p1 => runF fuel p1
        | .fail e p1 => .err e p1

/-- The run loop as a relation: `Runs p o` holds when `Run` terminates from
state `p` with outcome `o` (completion at depth 1, or an error). -/
inductive Runs : RespParser → ROut → Prop where
  | done : ∀ p, p.stack.length = 1 → Runs p (.done p)
  | step : ∀ p p1 o, p.stack.length ≠ 1 → stepTop p = .ok p1 → Runs p1 o → Runs p o
  | fail : ∀ p e p1, p.stack.length ≠ 1 → stepTop p = .fail e p1 → Runs p (.err e p1)

/-- Multi-step successful execution that never passes through depth 1. -/
inductive Steps : RespParser → RespParser → Prop where
  | refl : ∀ p, Steps p p
  | head : ∀ p p1 q, p.stack.length ≠ 1 → stepTop p = .ok p1 → Steps p1 q → Steps p q

/-- Result accessor: the result slot of the top frame. -/
def RespParser.Result (p : RespParser) : RValue :=
  match p.stack with
  | [] => .vnil
  | f :: _ => f.result

/-- The `BulkArray` accessor: interpret the result as an array and project
each element to its captured payload bytes, or `none` for any other element
kind; a non-array result is a failed type assertion (`none` overall). -/
def RespParser.BulkArray (p : RespParser) : Option (List (Option (List Nat))) :=
  match p.Result with
  | .varr xs =>
    some (xs.map fun x => match x with | .vbytes b => some b | _ => none)
  | _ => none

/-- State after `NewParser`/`Reset`: the root frame below one
`startParseValue` frame, with an empty byte source. -/
def initParser (lim : Int) : RespParser :=
  ⟨[⟨.parseValue, .vnil⟩, ⟨.root, .vnil⟩], ⟨[], 0⟩, lim⟩

/-- Feed a chunk of bytes to the parser's source. -/
def RespParser.feedP (p : RespParser) (e : List Nat) : RespParser :=
  ⟨p.stack, p.rdr.feed e, p.BulkCaptureLimit⟩

/-- Parser primed with a whole encoding delivered as one chunk. -/
def startParser (lim : Int) (bs : List Nat) : RespParser :=
  (initParser lim).feedP bs

/-- Map the state inside a step result through chunk delivery. -/
def StepRes.feedR (res : StepRes) (e : List Nat) : StepRes :=
  match res with
  | .ok q => .ok (q.feedP e)
  | .fail er q => .fail er (q.feedP e)

/-- Guard: the step result is not a resumable starvation signal. -/
def StepRes.notStarved (res : StepRes) : Prop :=
  match res with
  | .ok _ => True
  | .fail er _ => ¬ er.resumable

/-- Parsing completed with final value `v`. -/
def CompletesTo (p : RespParser) (v : RValue) : Prop :=
  ∃ t, Runs p (.done t) ∧ t.Result = v

/-- The caller protocol for chunked delivery: feed a chunk, call the run
loop; on completion take the result, on a resumable starvation signal feed
the next chunk and continue from the recorded state. -/
inductive CRun : List (List Nat) → RespParser → RValue → Prop where
  | last : ∀ (c : List Nat) (cs : List (List Nat)) (p t : RespParser),
      Runs (p.feedP c) (.done t) → CRun (c :: cs) p t.Result
  | step : ∀ (c : List Nat) (cs : List (List Nat)) (p : RespParser) (er : RErr)
      (t : RespParser) (v : RValue),
      Runs (p.feedP c) (.err er t) → er.resumable → CRun cs t v → CRun (c :: cs) p v

/-- Frames pushed by the tag dispatch of `startParseValue`. -/
def tagFrames (t : Tag) : List stackFrame :=
  match t with
  | .status => [⟨.parseSimpleString false, .vnil⟩]
  | .err => [⟨.parseSimpleString true, .vnil⟩]
  | .int => [⟨.parseInt, .vnil⟩]
  | .bulk => [⟨.parseInt, .vnil⟩, ⟨.parseBulk, .vnil⟩]
  | .arr => [⟨.parseInt, .vnil⟩, ⟨.parseArray, .vnil⟩]

mutual
/-- Nesting depth of a decoded value: arrays nest one deeper than their
deepest element, everything else is flat. -/
def vdepth : RValue → Nat
  | .vnil => 0
  | .vint _ => 0
  | .vstr _ => 0
  | .verr _ => 0
  | .vbytes _ => 0
  | .varr xs => 1 + vdepthL xs

/-- Depth of the deepest value in a list. -/
def vdepthL : List RValue → Nat
  | [] => 0
  | x :: t => max (vdepth x) (vdepthL t)
end

mutual
/-- Wire encodings of a decoded value, relative to the configured capture
limit: the five RESP shapes, with any integer line the Go `strconv.Atoi`
accepts for the required value. A bulk payload at most the limit decodes to
its bytes; a longer one decodes to its length, so both shapes appear here
with the corresponding value. Arrays carry a positive count matching their
elements. -/
def EncP (lim : Int) : RValue → List Nat → Prop
  | .vnil, bs => ∃ ds i, goAtoi ds = some i ∧ i < 0 ∧ bs = 36 :: (ds ++ [13, 10])
  | .vint i, bs =>
      (∃ ds, goAtoi ds = some i ∧ bs = 58 :: (ds ++ [13, 10])) ∨
      (∃ ds p, goAtoi ds = some i ∧ ((p.length : Int)) = i ∧ lim < i ∧
        bs = 36 :: (ds ++ 13 :: 10 :: (p ++ [13, 10])))
  | .vstr s, bs => findCRLF s = none ∧ bs = 43 :: (s ++ [13, 10])
  | .verr s, bs => findCRLF s = none ∧ bs = 45 :: (s ++ [13, 10])
  | .vbytes p, bs => ∃ ds, goAtoi ds = some ((p.length : Int)) ∧
      ((p.length : Int)) ≤ lim ∧ bs = 36 :: (ds ++ 13 :: 10 :: (p ++ [13, 10]))
  | .varr xs, bs => ∃ ds tail, goAtoi ds = some ((xs.length : Int)) ∧ xs ≠ [] ∧
      EncLP lim xs tail ∧ bs = 42 :: (ds ++ 13 :: 10 :: tail)

/-- Concatenation of encodings of a list of values, in order. -/
def EncLP (lim : Int) : List RValue → List Nat → Prop
  | [], bs => bs = []
  | v :: vs, bs => ∃ b1 b2, EncP lim v b1 ∧ EncLP lim vs b2 ∧ bs = b1 ++ b2
end

/-- Target depth of a result-slot write: the written frame is the top of a
stack of this length. -/
def WEv.target : WEv → Nat
  | .viaPop d _ => d
  | .directWrite d _ => d

/-- Whether a write bypassed `pop` (the array header's accumulator store). -/
def WEv.isDirect : WEv → Bool
  | .viaPop _ _ => false
  | .directWrite _ _ => true

/-- The run loop with the accumulated trace of result-slot writes. -/
def runFW : Nat → RespParser → List WEv → ROut × List WEv
  | fuel, p, acc =>
    if p.stack.length = 1 then (.done p, acc)
    else
      match fuel with
      | 0 => (.out, acc)
      | fuel + 1 =>
        match stepTopW p with
        | (.ok p1, ev) => runFW fuel p1 (acc ++ ev)
        | (.fail e p1, ev) => (.err e p1, acc ++ ev)

/-- Number of writes in a trace that target the frame at depth `d`. -/
def writesTo (d : Nat) (tr : List WEv) : Nat :=
  tr.countP fun ev => decide (ev.target = d)

/-- State on which the value dispatcher raises the protocol violation: a
parse-value frame over a parent, within the depth bound, whose next buffered
byte is not one of the five type tags. -/
def malformedTag (p : RespParser) : Prop :=
  match p.stack with
  | ⟨.parseValue, _⟩ :: _ :: _ =>
      ¬ stackLimit < p.stack.length ∧
      ∃ c cs, p.rdr.buf = c :: cs ∧ tagOf c = none
  | _ => False

/-- State on which the integer reader returns the strconv error: an integer
frame with a complete buffered line that does not parse as a decimal. -/
def malformedInt (p : RespParser) : Prop :=
  match p.stack with
  | ⟨.parseInt, _⟩ :: _ =>
      ∃ l r1, p.rdr.ReadLine = some (l, r1) ∧ goAtoi l = none
  | _ => False

/-- Bytes of the spec's example input, the encoding of
Array[Bulk "foo", Bulk "bar"]. -/
def exampleFooBar : List Nat :=
  [42, 50, 13, 10, 36, 51, 13, 10, 102, 111, 111, 13, 10,
   36, 51, 13, 10, 98, 97, 114, 13, 10]

/-- Bytes of the empty-array encoding. -/
def star0 : List Nat := [42, 48, 13, 10]

/-- Bytes of the null-array encoding. -/
def starNeg1 : List Nat := [42, 45, 49, 13, 10]

/-- Six nested single-element arrays around the integer 5. -/
def nested6 : List Nat :=
  [42, 49, 13, 10, 42, 49, 13, 10, 42, 49, 13, 10, 42, 49, 13, 10,
   42, 49, 13, 10, 42, 49, 13, 10, 58, 53, 13, 10]

/-- Seven nested single-element arrays around the integer 5. -/
def nested7 : List Nat :=
  [42, 49, 13, 10, 42, 49, 13, 10, 42, 49, 13, 10, 42, 49, 13, 10,
   42, 49, 13, 10, 42, 49, 13, 10, 42, 49, 13, 10, 58, 53, 13, 10]

/-- The decoded value of `nested6`. -/
def deep6 : RValue :=
  .varr [.varr [.varr [.varr [.varr [.varr [.vint 5]]]]]]

/-- Projection used by `BulkArray`: captured payload bytes, or `none` for
every other element kind. -/
def projBulk (x : RValue) : Option (List Nat) :=
  match x with
  | .vbytes b => some b
  | _ => none

/-- Bytes of `*3\r\n$5\r\nhello\r\n$-1\r\n$2\r\nok\r\n`. -/
def mixedBulk : List Nat :=
  [42, 51, 13, 10, 36, 53, 13, 10, 104, 101, 108, 108, 111, 13, 10,
   36, 45, 49, 13, 10, 36, 50, 13, 10, 111, 107, 13, 10]

/-- Dropping past a left factor of an append. -/
theorem drop_append_ge {α : Type} (b y : List α) (n : Nat) (h : b.length ≤ n) :
    (b ++ y).drop n = y.drop (n - b.length) := by
  have h2 : b.length + (n - b.length) = n := by omega
  calc (b ++ y).drop n = (b ++ y).drop (b.length + (n - b.length)) := by rw [h2]
    _ = y.drop (n - b.length) := List.drop_append _

/-- A CRLF hit is inside the list. -/
theorem findCRLF_bound (l : List Nat) : ∀ k, findCRLF l = some k → k + 2 ≤ l.length := by
  induction l with
  | nil => intro k h; simp [findCRLF] at h
  | cons a t ih =>
    intro k h
    match t with
    | [] => simp [findCRLF] at h
    | b :: t2 =>
      rw [findCRLF] at h
      by_cases hc : a = 13 ∧ b = 10
      · simp only [if_pos hc, Option.some.injEq] at h
        simp [← h]
      · simp only [if_neg hc, Option.map_eq_some'] at h
        obtain ⟨k2, hk2, hk⟩ := h
        have := ih k2 hk2
        simp only [List.length_cons] at this ⊢
        omega

/-- The first CRLF is unmoved by appending bytes on the right. -/
theorem findCRLF_append_some (l : List Nat) :
    ∀ k, findCRLF l = some k → ∀ x, findCRLF (l ++ x) = some k := by
  induction l with
  | nil => intro k h; simp [findCRLF] at h
  | cons a t ih =>
    intro k h x
    match t with
    | [] => simp [findCRLF] at h
    | b :: t2 =>
      rw [findCRLF] at h
      rw [List.cons_append, List.cons_append, findCRLF]
      by_cases hc : a = 13 ∧ b = 10
      · simp only [if_pos hc, Option.some.injEq] at h
        simp [if_pos hc, h]
      · simp only [if_neg hc, Option.map_eq_some'] at h
        obtain ⟨k2, hk2, hk⟩ := h
        have := ih k2 hk2 x
        rw [if_neg hc]
        rw [List.cons_append] at this
        simp [this, hk]

/-- A list without byte 13 has no CRLF. -/
theorem findCRLF_none_of_no13 (l : List Nat) (h : ∀ c ∈ l, c ≠ 13) :
    findCRLF l = none := by
  induction l with
  | nil => rfl
  | cons a t ih =>
    match t with
    | [] => rfl
    | b :: t2 =>
      rw [findCRLF]
      have ha : a ≠ 13 := h a (by simp)
      rw [if_neg (by tauto)]
      have := ih (fun c hc => h c (by simp [hc]))
      simp [this]

/-- Appending a terminator after a CRLF-free prefix puts the first CRLF
exactly at the end of the prefix. -/
theorem findCRLF_none_append (s : List Nat) :
    ∀ t, findCRLF s = none → findCRLF (s ++ 13 :: 10 :: t) = some s.length := by
  induction s with
  | nil => intro t _; simp [findCRLF]
  | cons a s2 ih =>
    intro t h
    match s2 with
    | [] =>
      have ha : ¬(a = 13 ∧ (13 : Nat) = 10) := by omega
      simp [findCRLF, ha]
    | b :: s3 =>
      rw [findCRLF] at h
      have hc : ¬(a = 13 ∧ b = 10) := by
        intro hc; rw [if_pos hc] at h; exact Option.noConfusion h
      rw [if_neg hc] at h
      have hrec : findCRLF (b :: s3) = none := by
        rcases h2 : findCRLF (b :: s3) with _ | k
        · rfl
        · rw [h2] at h; exact Option.noConfusion h
      have := ih t hrec
      simp only [List.cons_append]
      rw [findCRLF]
      simp only [List.cons_append] at this
      rw [if_neg hc, this]
      simp

/-- Feeding the empty chunk is the identity. -/
theorem Rdr.feed_nil (r : Rdr) : r.feed [] = r := by
  simp [Rdr.feed]

/-- Feeding a concatenation is feeding the parts in order. -/
theorem Rdr.feed_append (r : Rdr) (a b : List Nat) :
    r.feed (a ++ b) = (r.feed a).feed b := by
  rcases r with ⟨buf, pd⟩
  unfold Rdr.feed
  simp only [List.length_append]
  by_cases h1 : a.length + b.length ≤ pd
  · rw [if_pos h1, if_pos (by omega : a.length ≤ pd)]
    simp only
    rw [if_pos (by omega : b.length ≤ pd - a.length)]
    congr 1
    omega
  · rw [if_neg h1]
    by_cases h2 : a.length ≤ pd
    · rw [if_pos h2]
      simp only
      rw [if_neg (by omega : ¬ b.length ≤ pd - a.length)]
      congr 1
      rw [drop_append_ge a b pd h2]
    · rw [if_neg h2]
      simp only
      by_cases h3 : b.length = 0
      · have hb : b = [] := List.length_eq_zero.mp h3
        subst hb
        rw [if_pos (by omega : ([] : List Nat).length ≤ 0)]
        simp [List.drop_append_of_le_length (by omega : pd ≤ a.length)]
      · rw [if_neg (by omega : ¬ b.length ≤ 0)]
        simp [List.drop_append_of_le_length (by omega : pd ≤ a.length)]

/-- Discarding commutes with delivery of a later chunk. -/
theorem Rdr.discard_feed (r : Rdr) (n : Nat) (e : List Nat) :
    (r.Discard n).feed e = (r.feed e).Discard n := by
  rcases r with ⟨b, pd⟩
  unfold Rdr.Discard Rdr.feed
  simp only
  by_cases h1 : e.length ≤ pd
  · rw [if_pos (show e.length ≤ pd + (n - min n b.length) by omega), if_pos h1]
    simp only [Rdr.mk.injEq, true_and]
    omega
  · rw [if_neg h1]
    by_cases h2 : e.length ≤ pd + (n - min n b.length)
    · rw [if_pos h2]
      simp only [Rdr.mk.injEq]
      have hb : b.length < n := by omega
      constructor
      · rw [List.drop_eq_nil_of_le (by omega : b.length ≤ n),
          List.drop_eq_nil_of_le
            (by simp only [List.length_append, List.length_drop]; omega)]
      · simp only [List.length_append, List.length_drop]
        omega
    · rw [if_neg h2]
      simp only [Rdr.mk.injEq]
      constructor
      · rcases Nat.le_total n b.length with hbn | hbn
        · rw [List.drop_append_of_le_length hbn,
            show pd + (n - min n b.length) = pd by omega]
        · rw [List.drop_eq_nil_of_le hbn, drop_append_ge b _ n hbn, List.drop_drop]
          simp only [List.nil_append]
          congr 1
          omega
      · simp only [List.length_append, List.length_drop]
        omega

/-- A successful exact read still succeeds, with the same bytes, after more
data arrives, and the residues agree. -/
theorem Rdr.readN_feed (r : Rdr) (n : Nat) (out : List Nat) (r1 : Rdr) (e : List Nat)
    (h : r.ReadN n = .ok (out, r1)) : (r.feed e).ReadN n = .ok (out, r1.feed e) := by
  rcases r with ⟨b, pd⟩
  unfold Rdr.ReadN at h
  by_cases hn : n ≤ b.length
  · rw [if_pos hn] at h
    simp only [Except.ok.injEq, Prod.mk.injEq] at h
    obtain ⟨ho, hr⟩ := h
    subst ho; subst hr
    unfold Rdr.feed Rdr.ReadN
    by_cases h1 : e.length ≤ pd
    · rw [if_pos h1]
      simp only
      rw [if_pos hn, if_pos h1]
    · rw [if_neg h1]
      simp only [List.length_append]
      rw [if_pos (by omega : n ≤ b.length + (e.drop pd).length)]
      rw [if_neg h1]
      simp only [Except.ok.injEq, Prod.mk.injEq]
      exact ⟨List.take_append_of_le_length hn, by rw [List.drop_append_of_le_length hn]⟩
  · rw [if_neg hn] at h
    exact Except.noConfusion h

/-- A successful line read still succeeds identically after more data
arrives. -/
theorem Rdr.readLine_feed (r : Rdr) (l : List Nat) (r1 : Rdr) (e : List Nat)
    (h : r.ReadLine = some (l, r1)) : (r.feed e).ReadLine = some (l, r1.feed e) := by
  rcases r with ⟨b, pd⟩
  unfold Rdr.ReadLine at h
  rcases hf : findCRLF b with _ | k
  · rw [hf] at h; exact Option.noConfusion h
  · rw [hf] at h
    simp only [Option.some.injEq, Prod.mk.injEq] at h
    obtain ⟨hl, hr⟩ := h
    subst hl; subst hr
    have hb := findCRLF_bound b k hf
    unfold Rdr.feed Rdr.ReadLine
    by_cases h1 : e.length ≤ pd
    · rw [if_pos h1]
      simp only
      rw [hf, if_pos h1]
    · rw [if_neg h1]
      simp only
      rw [findCRLF_append_some b k hf (e.drop pd)]
      simp only [Option.some.injEq, Prod.mk.injEq]
      rw [if_neg h1]
      exact ⟨List.take_append_of_le_length (by omega),
        by rw [List.drop_append_of_le_length (by omega)]⟩

/-- Taking past a left factor of an append. -/
theorem take_append_ge {α : Type} (b y : List α) (n : Nat) (h : b.length ≤ n) :
    (b ++ y).take n = b ++ y.take (n - b.length) := by
  have h2 : b.length + (n - b.length) = n := by omega
  calc (b ++ y).take n = (b ++ y).take (b.length + (n - b.length)) := by rw [h2]
    _ = b ++ y.take (n - b.length) := List.take_append _

/-- Overwriting the top result slot twice keeps only the second write. -/
theorem setTop_setTop (s : List stackFrame) (v w : RValue) :
    setTopResult (setTopResult s v) w = setTopResult s w := by
  cases s <;> rfl

/-- Overwriting the top result slot preserves the stack length. -/
theorem setTop_length (s : List stackFrame) (v : RValue) :
    (setTopResult s v).length = s.length := by
  cases s <;> rfl

/-- Except for a resumable starvation signal, one step of the machine commutes
with delivering a fresh chunk to the byte source: the same branch is taken,
the same writes happen, and the chunk just rides along in the source. -/
theorem stepTopW_feed (p : RespParser) (e : List Nat)
    (hg : (stepTopW p).1.notStarved) :
    stepTopW (p.feedP e) = ((stepTopW p).1.feedR e, (stepTopW p).2) := by
  rcases p with ⟨stack, rdr, lim⟩
  cases stack with
  | nil => rfl
  | cons fr below =>
    rcases fr with ⟨fc, fres⟩
    cases fc with
    | root => rfl
    | parseValue =>
      by_cases hd : stackLimit < ((⟨.parseValue, fres⟩ : stackFrame) :: below).length
      · simp only [stepTopW, RespParser.feedP, StepRes.feedR, if_pos hd]
      · cases hr : Rdr.ReadN rdr 1 with
        | error out =>
          exfalso
          simp only [stepTopW, RespParser.feedP, StepRes.notStarved, RErr.resumable,
            if_neg hd, hr] at hg
          exact hg trivial
        | ok pr =>
          rcases pr with ⟨out, r1⟩
          have hr2 := Rdr.readN_feed rdr 1 out r1 e hr
          cases below with
          | nil =>
            simp only [stepTopW, RespParser.feedP, StepRes.feedR, if_neg hd, hr, hr2]
          | cons b1 bt =>
            cases ht : tagOf (out.headD 0) with
            | none =>
              simp only [stepTopW, RespParser.feedP, StepRes.feedR, if_neg hd, hr, hr2, ht]
            | some t =>
              cases t <;>
                simp only [stepTopW, RespParser.feedP, StepRes.feedR, if_neg hd, hr, hr2, ht]
    | parseSimpleString asError =>
      cases hr : Rdr.ReadLine rdr with
      | none =>
        exfalso
        simp only [stepTopW, StepRes.notStarved, RErr.resumable, hr] at hg
        exact hg trivial
      | some pr =>
        rcases pr with ⟨l, r1⟩
        have hr2 := Rdr.readLine_feed rdr l r1 e hr
        cases below with
        | nil => simp only [stepTopW, RespParser.feedP, StepRes.feedR, hr, hr2]
        | cons b1 bt => simp only [stepTopW, RespParser.feedP, StepRes.feedR, hr, hr2]
    | parseInt =>
      cases hr : Rdr.ReadLine rdr with
      | none =>
        exfalso
        simp only [stepTopW, StepRes.notStarved, RErr.resumable, hr] at hg
        exact hg trivial
      | some pr =>
        rcases pr with ⟨l, r1⟩
        have hr2 := Rdr.readLine_feed rdr l r1 e hr
        cases ha : goAtoi l with
        | none => simp only [stepTopW, RespParser.feedP, StepRes.feedR, hr, hr2, ha]
        | some i =>
          cases below with
          | nil => simp only [stepTopW, RespParser.feedP, StepRes.feedR, hr, hr2, ha]
          | cons b1 bt => simp only [stepTopW, RespParser.feedP, StepRes.feedR, hr, hr2, ha]
    | parseBulk =>
      cases fres with
      | vint n =>
        cases below with
        | nil => rfl
        | cons b1 bt =>
          by_cases hn : n < 0
          · simp only [stepTopW, RespParser.feedP, StepRes.feedR, if_pos hn]
          · by_cases hl : n ≤ lim
            · simp only [stepTopW, RespParser.feedP, StepRes.feedR, if_neg hn, if_pos hl]
            · simp only [stepTopW, RespParser.feedP, StepRes.feedR, if_neg hn, if_neg hl,
                Rdr.discard_feed]
      | vnil => rfl
      | vstr s => rfl
      | verr s => rfl
      | vbytes b => rfl
      | varr xs => rfl
    | parseBulkN accum n =>
      cases hr : Rdr.ReadN rdr n with
      | ok pr =>
        rcases pr with ⟨out, r1⟩
        have hr2 := Rdr.readN_feed rdr n out r1 e hr
        cases below with
        | nil => simp only [stepTopW, RespParser.feedP, StepRes.feedR, hr, hr2]
        | cons b1 bt =>
          simp only [stepTopW, RespParser.feedP, StepRes.feedR, hr, hr2, Rdr.discard_feed]
      | error out =>
        cases below with
        | nil =>
          cases hr2 : Rdr.ReadN (rdr.feed e) n with
          | ok pr2 =>
            rcases pr2 with ⟨out2, r2⟩
            simp only [stepTopW, RespParser.feedP, StepRes.feedR, hr, hr2]
          | error out2 =>
            simp only [stepTopW, RespParser.feedP, StepRes.feedR, hr, hr2]
        | cons b1 bt =>
          exfalso
          simp only [stepTopW, StepRes.notStarved, RErr.resumable, hr] at hg
          exact hg trivial
    | parseArray =>
      cases fres with
      | vint n =>
        cases below with
        | nil => rfl
        | cons b1 bt =>
          by_cases hn : n < 0
          · simp only [stepTopW, RespParser.feedP, StepRes.feedR, if_pos hn]
          · simp only [stepTopW, RespParser.feedP, StepRes.feedR, if_neg hn]
      | vnil => rfl
      | vstr s => rfl
      | verr s => rfl
      | vbytes b => rfl
      | varr xs => rfl
    | parseNArrayFields n =>
      cases below with
      | nil => rfl
      | cons b1 bt =>
        rcases b1 with ⟨bc, bres⟩
        cases bres with
        | varr xs =>
          by_cases hn : 1 < n
          · simp only [stepTopW, RespParser.feedP, StepRes.feedR, if_pos hn]
          · simp only [stepTopW, RespParser.feedP, StepRes.feedR, if_neg hn]
        | vnil => rfl
        | vint i => rfl
        | vstr s => rfl
        | verr s => rfl
        | vbytes b => rfl

/-- Successful steps commute with chunk delivery. -/
theorem stepTop_feed_ok (p p1 : RespParser) (e : List Nat) (h : stepTop p = .ok p1) :
    stepTop (p.feedP e) = .ok (p1.feedP e) := by
  have hg : (stepTopW p).1.notStarved := by
    unfold stepTop at h
    rw [h]
    trivial
  have h2 := stepTopW_feed p e hg
  unfold stepTop at h ⊢
  rw [h2]
  simp only [h, StepRes.feedR]

/-- Fatal failures commute with chunk delivery: feeding more bytes cannot
avert them. -/
theorem stepTop_feed_fatal (p p1 : RespParser) (er : RErr) (e : List Nat)
    (h : stepTop p = .fail er p1) (hf : ¬ er.resumable) :
    stepTop (p.feedP e) = .fail er (p1.feedP e) := by
  have hg : (stepTopW p).1.notStarved := by
    unfold stepTop at h
    rw [h]
    exact hf
  have h2 := stepTopW_feed p e hg
  unfold stepTop at h ⊢
  rw [h2]
  simp only [h, StepRes.feedR]

/-- Discarding the whole buffer empties it and leaves pending intact. -/
theorem Rdr.Discard_all (r : Rdr) : r.Discard r.buf.length = ⟨[], r.pending⟩ := by
  simp [Rdr.Discard]

/-- After a resumable starvation failure, the recorded state is equivalent to
the pre-failure state: both have the same stack depth, and delivering any
further chunk makes the machine take the same next step from either. This is
the heart of resumability for the short-read bulk path, which mutates its
frame before reporting the shortfall. -/
theorem stepTop_resume_sync (p p1 : RespParser) (er : RErr) (e : List Nat)
    (h : stepTop p = .fail er p1) (hres : er.resumable) :
    p1.stack.length = p.stack.length ∧ stepTop (p.feedP e) = stepTop (p1.feedP e) := by
  rcases p with ⟨stack, rdr, lim⟩
  cases stack with
  | nil =>
    simp only [stepTop, stepTopW] at h
    injection h with h1 h2
    subst h1
    simp [RErr.resumable] at hres
  | cons fr below =>
    rcases fr with ⟨fc, fres⟩
    cases fc with
    | root =>
      simp only [stepTop, stepTopW] at h
      injection h with h1 h2
      subst h1
      simp [RErr.resumable] at hres
    | parseValue =>
      by_cases hd : stackLimit < ((⟨.parseValue, fres⟩ : stackFrame) :: below).length
      · simp only [stepTop, stepTopW, if_pos hd] at h
        injection h with h1 h2
        subst h1
        simp [RErr.resumable] at hres
      · cases hr : Rdr.ReadN rdr 1 with
        | error out =>
          simp only [stepTop, stepTopW, if_neg hd, hr] at h
          injection h with h1 h2
          subst h2
          exact ⟨rfl, rfl⟩
        | ok pr =>
          rcases pr with ⟨out, r1⟩
          cases below with
          | nil =>
            simp only [stepTop, stepTopW, if_neg hd, hr] at h
            injection h with h1 h2
            subst h1
            simp [RErr.resumable] at hres
          | cons b1 bt =>
            cases ht : tagOf (out.headD 0) with
            | none =>
              simp only [stepTop, stepTopW, if_neg hd, hr, ht] at h
              injection h with h1 h2
              subst h1
              simp [RErr.resumable] at hres
            | some t =>
              cases t <;> (simp only [stepTop, stepTopW, if_neg hd, hr, ht] at h; cases h)
    | parseSimpleString asError =>
      cases hr : Rdr.ReadLine rdr with
      | none =>
        simp only [stepTop, stepTopW, hr] at h
        injection h with h1 h2
        subst h2
        exact ⟨rfl, rfl⟩
      | some pr =>
        rcases pr with ⟨l, r1⟩
        cases below with
        | nil =>
          simp only [stepTop, stepTopW, hr] at h
          injection h with h1 h2
          subst h1
          simp [RErr.resumable] at hres
        | cons b1 bt =>
          simp only [stepTop, stepTopW, hr] at h
          cases h
    | parseInt =>
      cases hr : Rdr.ReadLine rdr with
      | none =>
        simp only [stepTop, stepTopW, hr] at h
        injection h with h1 h2
        subst h2
        exact ⟨rfl, rfl⟩
      | some pr =>
        rcases pr with ⟨l, r1⟩
        cases ha : goAtoi l with
        | none =>
          simp only [stepTop, stepTopW, hr, ha] at h
          injection h with h1 h2
          subst h1
          simp [RErr.resumable] at hres
        | some i =>
          cases below with
          | nil =>
            simp only [stepTop, stepTopW, hr, ha] at h
            injection h with h1 h2
            subst h1
            simp [RErr.resumable] at hres
          | cons b1 bt =>
            simp only [stepTop, stepTopW, hr, ha] at h
            cases h
    | parseBulk =>
      cases fres with
      | vint n =>
        cases below with
        | nil =>
          simp only [stepTop, stepTopW] at h
          injection h with h1 h2
          subst h1
          simp [RErr.resumable] at hres
        | cons b1 bt =>
          by_cases hn : n < 0
          · simp only [stepTop, stepTopW, if_pos hn] at h
            cases h
          · by_cases hl : n ≤ lim
            · simp only [stepTop, stepTopW, if_neg hn, if_pos hl] at h
              cases h
            · simp only [stepTop, stepTopW, if_neg hn, if_neg hl] at h
              cases h
      | vnil =>
        simp only [stepTop, stepTopW] at h
        injection h with h1 h2
        subst h1
        simp [RErr.resumable] at hres
      | vstr s =>
        simp only [stepTop, stepTopW] at h
        injection h with h1 h2
        subst h1
        simp [RErr.resumable] at hres
      | verr s =>
        simp only [stepTop, stepTopW] at h
        injection h with h1 h2
        subst h1
        simp [RErr.resumable] at hres
      | vbytes b =>
        simp only [stepTop, stepTopW] at h
        injection h with h1 h2
        subst h1
        simp [RErr.resumable] at hres
      | varr xs =>
        simp only [stepTop, stepTopW] at h
        injection h with h1 h2
        subst h1
        simp [RErr.resumable] at hres
    | parseBulkN accum n =>
      cases hr : Rdr.ReadN rdr n with
      | ok pr =>
        rcases pr with ⟨out, r1⟩
        cases below with
        | nil =>
          simp only [stepTop, stepTopW, hr] at h
          injection h with h1 h2
          subst h1
          simp [RErr.resumable] at hres
        | cons b1 bt =>
          simp only [stepTop, stepTopW, hr] at h
          cases h
      | error out =>
        cases below with
        | nil =>
          simp only [stepTop, stepTopW, hr] at h
          injection h with h1 h2
          subst h1
          simp [RErr.resumable] at hres
        | cons b1 bt =>
          rcases rdr with ⟨b, pd⟩
          have hout : b = out ∧ ¬ n ≤ b.length := by
            unfold Rdr.ReadN at hr
            by_cases hle : n ≤ b.length
            · rw [if_pos hle] at hr
              cases hr
            · rw [if_neg hle] at hr
              injection hr with hb
              exact ⟨hb, hle⟩
          obtain ⟨hob, hnb⟩ := hout
          subst hob
          simp only [stepTop, stepTopW, hr] at h
          injection h with h1 h2
          subst h2
          constructor
          · simp [setTop_length]
          · -- both resumptions take the same next step
            have hdall : Rdr.Discard ⟨b, pd⟩ b.length = (⟨[], pd⟩ : Rdr) :=
              Rdr.Discard_all ⟨b, pd⟩
            rw [hdall]
            by_cases he : e.length ≤ pd
            · -- chunk swallowed by pending: both still starve identically
              have hf1 : Rdr.feed ⟨b, pd⟩ e = ⟨b, pd - e.length⟩ := by
                simp [Rdr.feed, he]
              have hf2 : Rdr.feed ⟨[], pd⟩ e = ⟨[], pd - e.length⟩ := by
                simp [Rdr.feed, he]
              simp only [RespParser.feedP, hf1, hf2]
              have hr1 : Rdr.ReadN ⟨b, pd - e.length⟩ n = .error b := by
                simp [Rdr.ReadN, hnb]
              have hr2 : Rdr.ReadN ⟨[], pd - e.length⟩ (n - b.length) = .error [] := by
                simp [Rdr.ReadN]
                omega
              simp only [stepTop, stepTopW, hr1, hr2, setTopResult]
              simp [Rdr.Discard]
            · -- chunk reaches the buffer
              have hf1 : Rdr.feed ⟨b, pd⟩ e = ⟨b ++ e.drop pd, 0⟩ := by
                simp [Rdr.feed, he]
              have hf2 : Rdr.feed ⟨[], pd⟩ e = ⟨e.drop pd, 0⟩ := by
                simp [Rdr.feed, he]
              simp only [RespParser.feedP, hf1, hf2]
              by_cases hfull : n ≤ b.length + (e.drop pd).length
              all_goals simp only [List.length_drop] at hfull
              · -- enough now: both complete the payload with the same bytes
                have hr1 : Rdr.ReadN ⟨b ++ e.drop pd, 0⟩ n =
                    .ok ((b ++ e.drop pd).take n, ⟨(b ++ e.drop pd).drop n, 0⟩) := by
                  unfold Rdr.ReadN
                  rw [if_pos (show n ≤ (b ++ e.drop pd).length by
                    simp only [List.length_append, List.length_drop]; omega)]
                have hr2 : Rdr.ReadN ⟨e.drop pd, 0⟩ (n - b.length) =
                    .ok ((e.drop pd).take (n - b.length), ⟨(e.drop pd).drop (n - b.length), 0⟩) := by
                  unfold Rdr.ReadN
                  rw [if_pos (show n - b.length ≤ (e.drop pd).length by
                    simp only [List.length_drop]; omega)]
                simp only [stepTop, stepTopW, hr1, hr2, setTopResult]
                rw [take_append_ge b (e.drop pd) n (by omega),
                  drop_append_ge b (e.drop pd) n (by omega)]
                simp [List.append_assoc]
              · -- still short: both starve again with the same accumulator
                have hr1 : Rdr.ReadN ⟨b ++ e.drop pd, 0⟩ n = .error (b ++ e.drop pd) := by
                  unfold Rdr.ReadN
                  rw [if_neg (show ¬ n ≤ (b ++ e.drop pd).length by
                    simp only [List.length_append, List.length_drop]; omega)]
                have hr2 : Rdr.ReadN ⟨e.drop pd, 0⟩ (n - b.length) = .error (e.drop pd) := by
                  unfold Rdr.ReadN
                  rw [if_neg (show ¬ n - b.length ≤ (e.drop pd).length by
                    simp only [List.length_drop]; omega)]
                simp only [stepTop, stepTopW, hr1, hr2, setTopResult]
                simp only [List.append_assoc, List.length_append]
                have hsub : n - (b.length + (e.drop pd).length) =
                    n - b.length - (e.drop pd).length := by omega
                rw [hsub]
                have hd1 : Rdr.Discard ⟨b ++ e.drop pd, 0⟩ (b ++ e.drop pd).length =
                    (⟨[], 0⟩ : Rdr) := Rdr.Discard_all _
                have hd2 : Rdr.Discard ⟨e.drop pd, 0⟩ (e.drop pd).length =
                    (⟨[], 0⟩ : Rdr) := Rdr.Discard_all _
                rw [List.length_append] at hd1
                rw [hd1, hd2]
    | parseArray =>
      cases fres with
      | vint n =>
        cases below with
        | nil =>
          simp only [stepTop, stepTopW] at h
          injection h with h1 h2
          subst h1
          simp [RErr.resumable] at hres
        | cons b1 bt =>
          by_cases hn : n < 0
          · simp only [stepTop, stepTopW, if_pos hn] at h
            injection h with h1 h2
            subst h1
            simp [RErr.resumable] at hres
          · simp only [stepTop, stepTopW, if_neg hn] at h
            cases h
      | vnil =>
        simp only [stepTop, stepTopW] at h
        injection h with h1 h2
        subst h1
        simp [RErr.resumable] at hres
      | vstr s =>
        simp only [stepTop, stepTopW] at h
        injection h with h1 h2
        subst h1
        simp [RErr.resumable] at hres
      | verr s =>
        simp only [stepTop, stepTopW] at h
        injection h with h1 h2
        subst h1
        simp [RErr.resumable] at hres
      | vbytes b =>
        simp only [stepTop, stepTopW] at h
        injection h with h1 h2
        subst h1
        simp [RErr.resumable] at hres
      | varr xs =>
        simp only [stepTop, stepTopW] at h
        injection h with h1 h2
        subst h1
        simp [RErr.resumable] at hres
    | parseNArrayFields n =>
      cases below with
      | nil =>
        simp only [stepTop, stepTopW] at h
        injection h with h1 h2
        subst h1
        simp [RErr.resumable] at hres
      | cons b1 bt =>
        rcases b1 with ⟨bc, bres⟩
        cases bres with
        | varr xs =>
          by_cases hn : 1 < n
          · simp only [stepTop, stepTopW, if_pos hn] at h
            cases h
          · simp only [stepTop, stepTopW, if_neg hn] at h
            cases h
        | vnil =>
          simp only [stepTop, stepTopW] at h
          injection h with h1 h2
          subst h1
          simp [RErr.resumable] at hres
        | vint i =>
          simp only [stepTop, stepTopW] at h
          injection h with h1 h2
          subst h1
          simp [RErr.resumable] at hres
        | vstr s =>
          simp only [stepTop, stepTopW] at h
          injection h with h1 h2
          subst h1
          simp [RErr.resumable] at hres
        | verr s =>
          simp only [stepTop, stepTopW] at h
          injection h with h1 h2
          subst h1
          simp [RErr.resumable] at hres
        | vbytes b =>
          simp only [stepTop, stepTopW] at h
          injection h with h1 h2
          subst h1
          simp [RErr.resumable] at hres

/-- Feeding the empty chunk to the parser is the identity. -/
theorem feedP_nil (p : RespParser) : p.feedP [] = p := by
  rcases p with ⟨s, r, l⟩
  simp [RespParser.feedP, Rdr.feed_nil]

/-- Feeding a concatenation equals feeding the parts in order. -/
theorem feedP_append (p : RespParser) (a b : List Nat) :
    p.feedP (a ++ b) = (p.feedP a).feedP b := by
  rcases p with ⟨s, r, l⟩
  simp [RespParser.feedP, Rdr.feed_append]

/-- Chunk delivery does not touch the stack. -/
theorem feedP_stack (p : RespParser) (e : List Nat) : (p.feedP e).stack = p.stack := rfl

/-- Chunk delivery does not touch the result. -/
theorem Result_feedP (p : RespParser) (e : List Nat) : (p.feedP e).Result = p.Result := rfl

/-- The run loop is deterministic. -/
theorem runs_det (p : RespParser) (o1 o2 : ROut) (h1 : Runs p o1) (h2 : Runs p o2) :
    o1 = o2 := by
  induction h1 generalizing o2 with
  | done q hl =>
    cases h2 with
    | done => rfl
    | step _ _ _ hl2 => exact absurd hl hl2
    | fail _ _ _ hl2 => exact absurd hl hl2
  | step q q1 o hl hs h1 ih =>
    cases h2 with
    | done _ hl2 => exact absurd hl2 hl
    | step _ q2 _ hl2 hs2 h2 =>
      rw [hs] at hs2
      injection hs2 with he
      subst he
      exact ih _ h2
    | fail _ e2 q2 hl2 hs2 =>
      rw [hs] at hs2
      cases hs2
  | fail q e q1 hl hs =>
    cases h2 with
    | done _ hl2 => exact absurd hl2 hl
    | step _ q2 _ hl2 hs2 _ =>
      rw [hs] at hs2
      cases hs2
    | fail _ e2 q2 hl2 hs2 =>
      rw [hs] at hs2
      injection hs2 with ha hb
      rw [ha, hb]

/-- A successful step preserves the set of final outcomes. -/
theorem runs_step_iff (p p1 : RespParser) (o : ROut) (hl : p.stack.length ≠ 1)
    (hs : stepTop p = .ok p1) : Runs p o ↔ Runs p1 o := by
  constructor
  · intro h
    cases h with
    | done _ hl2 => exact absurd hl2 hl
    | step _ q _ _ hs2 h2 =>
      rw [hs] at hs2
      injection hs2 with he
      subst he
      exact h2
    | fail _ _ _ _ hs2 =>
      rw [hs] at hs2
      cases hs2
  · intro h
    exact .step p p1 o hl hs h

/-- States that agree on their next step and are both mid-parse have the same
outcomes. -/
theorem runs_same_step (a b : RespParser) (o : ROut) (hla : a.stack.length ≠ 1)
    (hlb : b.stack.length ≠ 1) (hs : stepTop a = stepTop b) : Runs a o ↔ Runs b o := by
  cases hsa : stepTop a with
  | ok u =>
    have hsb : stepTop b = .ok u := by rw [← hs, hsa]
    rw [runs_step_iff a u o hla hsa, runs_step_iff b u o hlb hsb]
  | fail er q =>
    have hsb : stepTop b = .fail er q := by rw [← hs, hsa]
    constructor
    · intro h
      cases h with
      | done _ hl2 => exact absurd hl2 hla
      | step _ u _ _ hs2 _ => rw [hsa] at hs2; cases hs2
      | fail _ e2 q2 _ hs2 =>
        rw [hsa] at hs2
        injection hs2 with h1 h2
        subst h1
        subst h2
        exact .fail b er q hlb hsb
    · intro h
      cases h with
      | done _ hl2 => exact absurd hl2 hlb
      | step _ u _ _ hs2 _ => rw [hsb] at hs2; cases hs2
      | fail _ e2 q2 _ hs2 =>
        rw [hsb] at hs2
        injection hs2 with h1 h2
        subst h1
        subst h2
        exact .fail a er q hla hsa

/-- The bounded run loop is sound for the run relation. -/
theorem runF_sound : ∀ (k : Nat) (p : RespParser) (o : ROut),
    runF k p = o → o ≠ .out → Runs p o := by
  intro k
  induction k with
  | zero =>
    intro p o h ho
    unfold runF at h
    by_cases hl : p.stack.length = 1
    · rw [if_pos hl] at h
      subst h
      exact .done p hl
    · rw [if_neg hl] at h
      subst h
      exact absurd rfl ho
  | succ k ih =>
    intro p o h ho
    unfold runF at h
    by_cases hl : p.stack.length = 1
    · rw [if_pos hl] at h
      subst h
      exact .done p hl
    · rw [if_neg hl] at h
      cases hs : stepTop p with
      | ok p1 =>
        rw [hs] at h
        exact .step p p1 o hl hs (ih p1 o h ho)
      | fail er p1 =>
        rw [hs] at h
        subst h
        exact .fail p er p1 hl hs

/-- Completion after more data: the extra chunk just rides along. -/
theorem runs_done_feed (p : RespParser) (o : ROut) (h : Runs p o) :
    ∀ t, o = .done t → ∀ e, Runs (p.feedP e) (.done (t.feedP e)) := by
  induction h with
  | done q hl =>
    intro t ht e
    injection ht with h1
    subst h1
    exact .done (q.feedP e) (by rw [feedP_stack]; exact hl)
  | step q q1 o2 hl hs h2 ih =>
    intro t ht e
    exact .step _ (q1.feedP e) _ (by rw [feedP_stack]; exact hl)
      (stepTop_feed_ok q q1 e hs) (ih t ht e)
  | fail q er q1 hl hs =>
    intro t ht e
    cases ht

/-- A fatal failure persists identically after more data. -/
theorem runs_fatal_feed (p : RespParser) (o : ROut) (h : Runs p o) :
    ∀ er t, o = .err er t → ¬ er.resumable → ∀ e,
      Runs (p.feedP e) (.err er (t.feedP e)) := by
  induction h with
  | done q hl =>
    intro er t ht
    cases ht
  | step q q1 o2 hl hs h2 ih =>
    intro er t ht hf e
    exact .step _ (q1.feedP e) _ (by rw [feedP_stack]; exact hl)
      (stepTop_feed_ok q q1 e hs) (ih er t ht hf e)
  | fail q er2 q1 hl hs =>
    intro er t ht hf e
    injection ht with h1 h2
    subst h1
    subst h2
    exact .fail _ er2 (q1.feedP e) (by rw [feedP_stack]; exact hl)
      (stepTop_feed_fatal q q1 er2 e hs hf)

/-- After a resumable failure, resuming with a chunk from the recorded state
gives exactly the outcomes of having had the chunk from the start. -/
theorem runs_resume_feed (p : RespParser) (o2 : ROut) (h : Runs p o2) :
    ∀ er p1, o2 = .err er p1 → er.resumable →
      ∀ e o, Runs (p.feedP e) o ↔ Runs (p1.feedP e) o := by
  induction h with
  | done q hl =>
    intro er p1 ht
    cases ht
  | step q q1 o3 hl hs h2 ih =>
    intro er p1 ht hres e o
    rw [runs_step_iff (q.feedP e) (q1.feedP e) o (by rw [feedP_stack]; exact hl)
      (stepTop_feed_ok q q1 e hs)]
    exact ih er p1 ht hres e o
  | fail q er2 q1 hl hs =>
    intro er p1 ht hres e o
    injection ht with h1 h2
    subst h1
    subst h2
    obtain ⟨hlen, hstep⟩ := stepTop_resume_sync q q1 er2 e hs hres
    exact runs_same_step _ _ o (by rw [feedP_stack]; exact hl)
      (by rw [feedP_stack]; rw [hlen]; exact hl) hstep

/-- A resumable failure is a stable self-loop: without new data the recorded
state fails the same way. -/
theorem runs_resume_self (p : RespParser) (o2 : ROut) (h : Runs p o2) :
    ∀ er t, o2 = .err er t → er.resumable →
      t.stack.length ≠ 1 ∧ stepTop t = .fail er t := by
  induction h with
  | done q hl =>
    intro er t ht
    cases ht
  | step q q1 o3 hl hs h2 ih =>
    intro er t ht hres
    exact ih er t ht hres
  | fail q er2 q1 hl hs =>
    intro er t ht hres
    injection ht with h1 h2
    subst h1
    subst h2
    obtain ⟨hlen, hstep⟩ := stepTop_resume_sync q q1 er2 [] hs hres
    rw [feedP_nil, feedP_nil] at hstep
    constructor
    · rw [hlen]; exact hl
    · rw [← hstep]; exact hs

/-- The run relation never reports fuel exhaustion. -/
theorem runs_not_out (p : RespParser) (o : ROut) (h : Runs p o) : o ≠ .out := by
  induction h with
  | done q hl => simp
  | step q q1 o2 hl hs h2 ih => exact ih
  | fail q er q1 hl hs => simp

/-- Running with less input still terminates (possibly blocked earlier). -/
theorem runs_unfeed_total (q : RespParser) (o : ROut) (h : Runs q o) :
    ∀ p e, q = p.feedP e → ∃ o2, Runs p o2 := by
  induction h with
  | done q2 hl =>
    intro p e hq
    refine ⟨.done p, .done p ?_⟩
    rw [hq, feedP_stack] at hl
    exact hl
  | step q2 q1 o3 hl hs h2 ih =>
    intro p e hq
    subst hq
    cases hsp : stepTop p with
    | ok u =>
      have hcomm := stepTop_feed_ok p u e hsp
      rw [hs] at hcomm
      injection hcomm with he
      obtain ⟨o2, ho2⟩ := ih u e he
      rw [feedP_stack] at hl
      exact ⟨o2, .step p u o2 hl hsp ho2⟩
    | fail er u =>
      rw [feedP_stack] at hl
      exact ⟨.err er u, .fail p er u hl hsp⟩
  | fail q2 er q1 hl hs =>
    intro p e hq
    subst hq
    cases hsp : stepTop p with
    | ok u =>
      have hcomm := stepTop_feed_ok p u e hsp
      rw [hs] at hcomm
      cases hcomm
    | fail er2 u =>
      rw [feedP_stack] at hl
      exact ⟨.err er2 u, .fail p er2 u hl hsp⟩

/-- Chunked delivery is equivalent to single-chunk delivery: from any parser
state, delivering the chunks one at a time with run calls in between
completes with value `v` exactly when delivering their concatenation at once
does. -/
theorem crun_iff_single (cs : List (List Nat)) (p : RespParser) (v : RValue) :
    CRun cs p v ↔ (cs ≠ [] ∧ CompletesTo (p.feedP cs.flatten) v) := by
  constructor
  · intro h
    induction h with
    | last c cs2 q t hr =>
      refine ⟨by simp, ?_⟩
      have := runs_done_feed (q.feedP c) (.done t) hr t rfl cs2.flatten
      rw [← feedP_append] at this
      exact ⟨t.feedP cs2.flatten, by simpa using this, Result_feedP t cs2.flatten⟩
    | step c cs2 q er t v2 hr hres hc ih =>
      obtain ⟨hne, u, hu, huv⟩ := ih
      refine ⟨by simp, ?_⟩
      have hiff := runs_resume_feed (q.feedP c) (.err er t) hr er t rfl hres
        cs2.flatten (.done u)
      rw [← feedP_append] at hiff
      exact ⟨u, by simpa using hiff.mpr hu, huv⟩
  · intro h
    obtain ⟨hne, hct⟩ := h
    induction cs generalizing p with
    | nil => exact absurd rfl hne
    | cons c cs2 ih =>
      obtain ⟨u, hu, huv⟩ := hct
      rw [List.flatten_cons, feedP_append] at hu
      obtain ⟨o2, ho2⟩ := runs_unfeed_total ((p.feedP c).feedP cs2.flatten)
        (.done u) hu (p.feedP c) cs2.flatten rfl
      cases o2 with
      | out =>
        exact absurd rfl (runs_not_out _ _ ho2)
      | done t =>
        have := runs_done_feed (p.feedP c) (.done t) ho2 t rfl cs2.flatten
        have hud := runs_det _ _ _ hu this
        injection hud with hud2
        subst hud2
        have hres2 : t.Result = v := by
          rw [← Result_feedP t cs2.flatten]
          exact huv
        rw [← hres2]
        exact CRun.last c cs2 p t ho2
      | err er t =>
        by_cases hres : er.resumable
        · have hiff := runs_resume_feed (p.feedP c) (.err er t) ho2 er t rfl hres
            cs2.flatten (.done u)
          have hrt : Runs (t.feedP cs2.flatten) (.done u) := hiff.mp hu
          cases cs2 with
          | nil =>
            exfalso
            obtain ⟨hlen, hself⟩ := runs_resume_self (p.feedP c) (.err er t) ho2 er t rfl hres
            rw [List.flatten_nil, feedP_nil] at hrt
            have : Runs t (.err er t) := .fail t er t hlen hself
            have := runs_det t _ _ hrt this
            cases this
          | cons c2 cs3 =>
            exact CRun.step c (c2 :: cs3) p er t v ho2 hres
              (ih t (by simp) ⟨u, hrt, huv⟩)
        · have := runs_fatal_feed (p.feedP c) (.err er t) ho2 er t rfl hres cs2.flatten
          have hud := runs_det _ _ _ hu this
          cases hud

/-- Every byte consumed by a successful digit fold is a decimal digit. -/
theorem digitsAux_digits : ∀ (l : List Nat) (acc v : Nat), digitsAux l acc = some v →
    ∀ c ∈ l, 48 ≤ c ∧ c ≤ 57 := by
  intro l
  induction l with
  | nil =>
    intro acc v h c hc
    simp at hc
  | cons a t ih =>
    intro acc v h c hc
    unfold digitsAux at h
    by_cases hd : 48 ≤ a ∧ a ≤ 57
    · rw [if_pos hd] at h
      rcases List.mem_cons.mp hc with rfl | hc2
      · exact hd
      · exact ih _ v h c hc2
    · rw [if_neg hd] at h
      cases h

/-- Every byte of a successful digit run is a decimal digit. -/
theorem digitsVal_digits (l : List Nat) (v : Nat) (h : digitsVal l = some v) :
    ∀ c ∈ l, 48 ≤ c ∧ c ≤ 57 := by
  cases l with
  | nil =>
    intro c hc
    simp at hc
  | cons a t =>
    unfold digitsVal at h
    intro c hc
    exact digitsAux_digits _ _ _ h c hc

/-- A line accepted by the integer parser contains no CRLF. -/
theorem goAtoi_no13 (ds : List Nat) (i : Int) (h : goAtoi ds = some i) :
    findCRLF ds = none := by
  apply findCRLF_none_of_no13
  intro c hc
  cases ds with
  | nil => simp at hc
  | cons a t =>
    simp only [goAtoi] at h
    by_cases h43 : a = 43
    · rw [if_pos h43] at h
      cases hv : digitsVal t with
      | none =>
        rw [hv] at h
        cases h
      | some v =>
        rcases List.mem_cons.mp hc with rfl | hc2
        · omega
        · have := digitsVal_digits t v hv c hc2
          omega
    · rw [if_neg h43] at h
      by_cases h45 : a = 45
      · rw [if_pos h45] at h
        cases hv : digitsVal t with
        | none =>
          rw [hv] at h
          cases h
        | some v =>
          rcases List.mem_cons.mp hc with rfl | hc2
          · omega
          · have := digitsVal_digits t v hv c hc2
            omega
      · rw [if_neg h45] at h
        cases hv : digitsVal (a :: t) with
        | none =>
          rw [hv] at h
          cases h
        | some v =>
          have := digitsVal_digits (a :: t) v hv c hc
          omega

/-- The value dispatcher pops itself and pushes the handler frames for the
recognized tag byte. -/
theorem step_value (c : Nat) (t : Tag) (hc : tagOf c = some t) (fres : RValue)
    (bf : stackFrame) (bt : List stackFrame) (rest : List Nat) (pd : Nat) (lim : Int)
    (hd : ¬ stackLimit < bt.length + 1 + 1) :
    stepTop ⟨⟨.parseValue, fres⟩ :: bf :: bt, ⟨c :: rest, pd⟩, lim⟩ =
      .ok ⟨tagFrames t ++ setTopResult (bf :: bt) .vnil, ⟨rest, pd⟩, lim⟩ := by
  have hrn : Rdr.ReadN ⟨c :: rest, pd⟩ 1 = .ok ([c], ⟨rest, pd⟩) := by
    unfold Rdr.ReadN
    rw [if_pos (by simp)]
    rfl
  cases t <;>
    simp only [stepTop, stepTopW, List.length_cons, if_neg hd, hrn, List.headD,
      hc, tagFrames, List.cons_append, List.nil_append]

/-- The simple-string handler reads one line and pops it as a status or error
value. -/
theorem step_simple (asError : Bool) (l : List Nat) (hl : findCRLF l = none)
    (fres : RValue) (bf : stackFrame) (bt : List stackFrame) (rest : List Nat)
    (pd : Nat) (lim : Int) :
    stepTop ⟨⟨.parseSimpleString asError, fres⟩ :: bf :: bt,
        ⟨l ++ 13 :: 10 :: rest, pd⟩, lim⟩ =
      .ok ⟨setTopResult (bf :: bt) (if asError then .verr l else .vstr l),
        ⟨rest, pd⟩, lim⟩ := by
  have hline : Rdr.ReadLine ⟨l ++ 13 :: 10 :: rest, pd⟩ = some (l, ⟨rest, pd⟩) := by
    unfold Rdr.ReadLine
    simp only [findCRLF_none_append l rest hl]
    rw [List.take_append_of_le_length (le_refl l.length), List.take_length,
      show l.length + 2 = l.length + 2 from rfl]
    have hdrop : (l ++ 13 :: 10 :: rest).drop (l.length + 2) = rest :=
      List.drop_append 2
    rw [hdrop]
  simp only [stepTop, stepTopW, hline]

/-- The integer handler reads one line, parses it, and pops the value. -/
theorem step_int (l : List Nat) (i : Int) (ha : goAtoi l = some i)
    (fres : RValue) (bf : stackFrame) (bt : List stackFrame) (rest : List Nat)
    (pd : Nat) (lim : Int) :
    stepTop ⟨⟨.parseInt, fres⟩ :: bf :: bt, ⟨l ++ 13 :: 10 :: rest, pd⟩, lim⟩ =
      .ok ⟨setTopResult (bf :: bt) (.vint i), ⟨rest, pd⟩, lim⟩ := by
  have hl : findCRLF l = none := goAtoi_no13 l i ha
  have hline : Rdr.ReadLine ⟨l ++ 13 :: 10 :: rest, pd⟩ = some (l, ⟨rest, pd⟩) := by
    unfold Rdr.ReadLine
    simp only [findCRLF_none_append l rest hl]
    rw [List.take_append_of_le_length (le_refl l.length), List.take_length]
    have hdrop : (l ++ 13 :: 10 :: rest).drop (l.length + 2) = rest :=
      List.drop_append 2
    rw [hdrop]
  simp only [stepTop, stepTopW, hline, ha]

/-- Bulk header with negative length: pop the absent value, touch nothing. -/
theorem step_bulkHdr_neg (n : Int) (hn : n < 0) (bf : stackFrame)
    (bt : List stackFrame) (r : Rdr) (lim : Int) :
    stepTop ⟨⟨.parseBulk, .vint n⟩ :: bf :: bt, r, lim⟩ =
      .ok ⟨setTopResult (bf :: bt) .vnil, r, lim⟩ := by
  simp only [stepTop, stepTopW, if_pos hn]

/-- Bulk header within the capture limit: switch to the payload reader. -/
theorem step_bulkHdr_in (n lim : Int) (hn : ¬ n < 0) (hl : n ≤ lim) (bf : stackFrame)
    (bt : List stackFrame) (r : Rdr) :
    stepTop ⟨⟨.parseBulk, .vint n⟩ :: bf :: bt, r, lim⟩ =
      .ok ⟨⟨.parseBulkN [] n.toNat, .vnil⟩ :: setTopResult (bf :: bt) .vnil, r, lim⟩ := by
  simp only [stepTop, stepTopW, if_neg hn, if_pos hl]

/-- Bulk header beyond the capture limit: pop the length and skip the payload
plus terminator. -/
theorem step_bulkHdr_over (n lim : Int) (hn : ¬ n < 0) (hl : ¬ n ≤ lim) (bf : stackFrame)
    (bt : List stackFrame) (r : Rdr) :
    stepTop ⟨⟨.parseBulk, .vint n⟩ :: bf :: bt, r, lim⟩ =
      .ok ⟨setTopResult (bf :: bt) (.vint n), r.Discard (n + 2).toNat, lim⟩ := by
  simp only [stepTop, stepTopW, if_neg hn, if_neg hl]

/-- Payload reader with the whole payload buffered: read it, discard the
terminator, pop the accumulated bytes. -/
theorem step_bulkN_full (accum p : List Nat) (fres : RValue) (bf : stackFrame)
    (bt : List stackFrame) (rest : List Nat) (pd : Nat) (lim : Int) :
    stepTop ⟨⟨.parseBulkN accum p.length, fres⟩ :: bf :: bt,
        ⟨p ++ 13 :: 10 :: rest, pd⟩, lim⟩ =
      .ok ⟨setTopResult (bf :: bt) (.vbytes (accum ++ p)), ⟨rest, pd⟩, lim⟩ := by
  have hrn : Rdr.ReadN ⟨p ++ 13 :: 10 :: rest, pd⟩ p.length =
      .ok (p, ⟨13 :: 10 :: rest, pd⟩) := by
    unfold Rdr.ReadN
    rw [if_pos (by simp)]
    rw [List.take_append_of_le_length (le_refl p.length), List.take_length,
      List.drop_left]
  have hdc : Rdr.Discard ⟨13 :: 10 :: rest, pd⟩ 2 = ⟨rest, pd⟩ := by
    unfold Rdr.Discard
    simp
  simp only [stepTop, stepTopW, hrn, hdc]

/-- Array header with a non-negative count: install the accumulator in the
frame below and start the field loop. -/
theorem step_array (n : Int) (hn : ¬ n < 0) (bf : stackFrame) (bt : List stackFrame)
    (r : Rdr) (lim : Int) :
    stepTop ⟨⟨.parseArray, .vint n⟩ :: bf :: bt, r, lim⟩ =
      .ok ⟨⟨.parseValue, .vnil⟩ :: ⟨.parseNArrayFields n, .vnil⟩ ::
        setTopResult (bf :: bt) (.varr []), r, lim⟩ := by
  simp only [stepTop, stepTopW, if_neg hn]

/-- Field loop, last field: append the parsed element and pop the array. -/
theorem step_fields_last (n : Int) (hn : ¬ 1 < n) (x : RValue) (bc : FrameCode)
    (acc : List RValue) (bt : List stackFrame) (r : Rdr) (lim : Int) :
    stepTop ⟨⟨.parseNArrayFields n, x⟩ :: ⟨bc, .varr acc⟩ :: bt, r, lim⟩ =
      .ok ⟨⟨bc, .varr (acc ++ [x])⟩ :: bt, r, lim⟩ := by
  simp only [stepTop, stepTopW, if_neg hn]

/-- Field loop, more fields to come: append the element and start the next. -/
theorem step_fields_more (n : Int) (hn : 1 < n) (x : RValue) (bc : FrameCode)
    (acc : List RValue) (bt : List stackFrame) (r : Rdr) (lim : Int) :
    stepTop ⟨⟨.parseNArrayFields n, x⟩ :: ⟨bc, .varr acc⟩ :: bt, r, lim⟩ =
      .ok ⟨⟨.parseValue, .vnil⟩ :: ⟨.parseNArrayFields (n - 1), .vnil⟩ ::
        ⟨bc, .varr (acc ++ [x])⟩ :: bt, r, lim⟩ := by
  simp only [stepTop, stepTopW, if_pos hn]

/-- Steps compose. -/
theorem steps_trans (a b c : RespParser) (h1 : Steps a b) (h2 : Steps b c) :
    Steps a c := by
  induction h1 with
  | refl => exact h2
  | head p p1 q hl hstep h ih => exact .head p p1 c hl hstep (ih h2)

/-- A step chain prefixed to a run. -/
theorem steps_runs (a b : RespParser) (o : ROut) (h : Steps a b) (h2 : Runs b o) :
    Runs a o := by
  induction h with
  | refl => exact h2
  | head p p1 q hl hstep h ih => exact .step p p1 o hl hstep (ih h2)

/-- Cons stacks are never at depth 1 when at least two frames are present. -/
theorem len2_ne1 (a b : stackFrame) (t : List stackFrame) :
    (a :: b :: t).length ≠ 1 := by
  simp only [List.length_cons]
  omega

/-- The array field loop decodes the remaining elements one by one, appending
each to the accumulator in the frame below, and pops the finished array.
`IH` is the parse-correctness induction hypothesis for shorter inputs. -/
theorem fields_steps (lim : Int) (N : Nat)
    (IH : ∀ (m : Nat), m < N → ∀ (v : RValue) (bs : List Nat),
      bs.length ≤ m → EncP lim v bs →
      ∀ (s : List stackFrame) (rest : List Nat) (pd : Nat), s ≠ [] →
        s.length + 1 + vdepth v ≤ stackLimit →
        Steps ⟨⟨.parseValue, .vnil⟩ :: s, ⟨bs ++ rest, pd⟩, lim⟩
          ⟨setTopResult s v, ⟨rest, pd⟩, lim⟩) :
    ∀ (xs : List RValue) (tail : List Nat), EncLP lim xs tail → tail.length < N →
      xs ≠ [] →
      ∀ (acc : List RValue) (bc : FrameCode) (bt : List stackFrame)
        (rest : List Nat) (pd : Nat),
        bt.length + 3 + vdepthL xs ≤ stackLimit →
        Steps ⟨⟨.parseValue, .vnil⟩ :: ⟨.parseNArrayFields ((xs.length : Int)), .vnil⟩ ::
            ⟨bc, .varr acc⟩ :: bt, ⟨tail ++ rest, pd⟩, lim⟩
          ⟨⟨bc, .varr (acc ++ xs)⟩ :: bt, ⟨rest, pd⟩, lim⟩ := by
  intro xs
  induction xs with
  | nil =>
    intro tail _ _ hne
    exact absurd rfl hne
  | cons x xs2 ihx =>
    intro tail hEncL hN hne acc bc bt rest pd hdep
    rw [EncLP] at hEncL
    obtain ⟨b1, b2, hE1, hE2, rfl⟩ := hEncL
    have hb1N : b1.length < N := by
      rw [List.length_append] at hN
      omega
    have hb2N : b2.length < N := by
      rw [List.length_append] at hN
      omega
    have hdx : vdepth x ≤ vdepthL (x :: xs2) := by
      rw [vdepthL]
      exact le_max_left _ _
    have hdxs : vdepthL xs2 ≤ vdepthL (x :: xs2) := by
      rw [vdepthL]
      exact le_max_right _ _
    -- parse the element x
    have hstep1 := IH b1.length hb1N x b1 (le_refl _) hE1
      (⟨.parseNArrayFields (((x :: xs2).length : Int)), .vnil⟩ :: ⟨bc, .varr acc⟩ :: bt)
      (b2 ++ rest) pd (by simp)
      (by simp only [List.length_cons]; omega)
    rw [show (b1 ++ b2) ++ rest = b1 ++ (b2 ++ rest) by rw [List.append_assoc]]
    refine steps_trans _ _ _ hstep1 ?_
    rw [setTopResult]
    cases xs2 with
    | nil =>
      rw [EncLP] at hE2
      subst hE2
      have hn1 : ¬ (1 : Int) < (([x] : List RValue).length : Int) := by
        simp
      refine Steps.head _ _ _ (len2_ne1 _ _ _) (step_fields_last _ hn1 x bc acc bt _ lim) ?_
      simp only [List.nil_append]
      exact Steps.refl _
    | cons x2 xs3 =>
      have hn1 : (1 : Int) < ((x :: x2 :: xs3 : List RValue).length : Int) := by
        simp only [List.length_cons]
        omega
      refine Steps.head _ _ _ (len2_ne1 _ _ _) (step_fields_more _ hn1 x bc acc bt _ lim) ?_
      have hcast : ((x :: x2 :: xs3 : List RValue).length : Int) - 1 =
          ((x2 :: xs3 : List RValue).length : Int) := by
        simp only [List.length_cons]
        omega
      rw [hcast]
      have := ihx b2 hE2 hb2N (by simp) (acc ++ [x]) bc bt rest pd
        (by omega)
      rw [show (acc ++ [x]) ++ (x2 :: xs3) = acc ++ (x :: x2 :: xs3) by
        rw [List.append_assoc]; rfl] at this
      exact this

/-- End-to-end parse correctness: from any stack with room, a value-parse
frame consumes exactly one valid encoding of `v` from the source and leaves
`v` in the result slot of the frame below, at any pending-skip state and with
any bytes following. -/
theorem parseValue_steps (lim : Int) : ∀ (N : Nat) (v : RValue) (bs : List Nat),
    bs.length ≤ N → EncP lim v bs →
    ∀ (s : List stackFrame) (rest : List Nat) (pd : Nat), s ≠ [] →
      s.length + 1 + vdepth v ≤ stackLimit →
      Steps ⟨⟨.parseValue, .vnil⟩ :: s, ⟨bs ++ rest, pd⟩, lim⟩
        ⟨setTopResult s v, ⟨rest, pd⟩, lim⟩ := by
  intro N
  induction N using Nat.strong_induction_on with
  | _ N IH =>
    intro v bs hN hEnc s rest pd hs hdep
    rcases s with _ | ⟨bf, bt⟩
    · exact absurd rfl hs
    cases v with
    | vstr s1 =>
      rw [EncP] at hEnc
      obtain ⟨hnc, rfl⟩ := hEnc
      simp only [vdepth, List.length_cons] at hdep
      have hd : ¬ stackLimit < bt.length + 1 + 1 := by omega
      rw [show (43 :: (s1 ++ [13, 10])) ++ rest = 43 :: (s1 ++ 13 :: 10 :: rest) by simp]
      refine Steps.head _ _ _ (len2_ne1 _ _ _)
        (step_value 43 .status (by decide) .vnil bf bt (s1 ++ 13 :: 10 :: rest) pd lim hd) ?_
      rw [tagFrames, setTopResult]
      simp only [List.cons_append, List.nil_append]
      refine Steps.head _ _ _ (len2_ne1 _ _ _)
        (step_simple false s1 hnc .vnil ⟨bf.code, .vnil⟩ bt rest pd lim) ?_
      exact Steps.refl _
    | verr s1 =>
      rw [EncP] at hEnc
      obtain ⟨hnc, rfl⟩ := hEnc
      simp only [vdepth, List.length_cons] at hdep
      have hd : ¬ stackLimit < bt.length + 1 + 1 := by omega
      rw [show (45 :: (s1 ++ [13, 10])) ++ rest = 45 :: (s1 ++ 13 :: 10 :: rest) by simp]
      refine Steps.head _ _ _ (len2_ne1 _ _ _)
        (step_value 45 .err (by decide) .vnil bf bt (s1 ++ 13 :: 10 :: rest) pd lim hd) ?_
      rw [tagFrames, setTopResult]
      simp only [List.cons_append, List.nil_append]
      refine Steps.head _ _ _ (len2_ne1 _ _ _)
        (step_simple true s1 hnc .vnil ⟨bf.code, .vnil⟩ bt rest pd lim) ?_
      exact Steps.refl _
    | vint i =>
      rw [EncP] at hEnc
      simp only [vdepth, List.length_cons] at hdep
      have hd : ¬ stackLimit < bt.length + 1 + 1 := by omega
      rcases hEnc with ⟨ds, hds, rfl⟩ | ⟨ds, p, hds, hlen, hover, rfl⟩
      · rw [show (58 :: (ds ++ [13, 10])) ++ rest = 58 :: (ds ++ 13 :: 10 :: rest) by simp]
        refine Steps.head _ _ _ (len2_ne1 _ _ _)
          (step_value 58 .int (by decide) .vnil bf bt (ds ++ 13 :: 10 :: rest) pd lim hd) ?_
        rw [tagFrames, setTopResult]
        simp only [List.cons_append, List.nil_append]
        refine Steps.head _ _ _ (len2_ne1 _ _ _)
          (step_int ds i hds .vnil ⟨bf.code, .vnil⟩ bt rest pd lim) ?_
        exact Steps.refl _
      · rw [show (36 :: (ds ++ 13 :: 10 :: (p ++ [13, 10]))) ++ rest =
          36 :: (ds ++ 13 :: 10 :: (p ++ 13 :: 10 :: rest)) by simp]
        refine Steps.head _ _ _ (len2_ne1 _ _ _)
          (step_value 36 .bulk (by decide) .vnil bf bt
            (ds ++ 13 :: 10 :: (p ++ 13 :: 10 :: rest)) pd lim hd) ?_
        rw [tagFrames, setTopResult]
        simp only [List.cons_append, List.nil_append]
        refine Steps.head _ _ _ (len2_ne1 _ _ _)
          (step_int ds i hds .vnil ⟨.parseBulk, .vnil⟩ (⟨bf.code, .vnil⟩ :: bt)
            (p ++ 13 :: 10 :: rest) pd lim) ?_
        rw [setTopResult]
        have hn : ¬ i < 0 := by omega
        have hl2 : ¬ i ≤ lim := by omega
        refine Steps.head _ _ _ (len2_ne1 _ _ _)
          (step_bulkHdr_over i lim hn hl2 ⟨bf.code, .vnil⟩ bt ⟨p ++ 13 :: 10 :: rest, pd⟩) ?_
        have hdisc : Rdr.Discard ⟨p ++ 13 :: 10 :: rest, pd⟩ ((i + 2).toNat) =
            (⟨rest, pd⟩ : Rdr) := by
          have h2 : (i + 2).toNat = p.length + 2 := by omega
          rw [h2]
          unfold Rdr.Discard
          simp only [Rdr.mk.injEq]
          constructor
          · simp
          · simp only [List.length_append, List.length_cons]
            omega
        rw [hdisc]
        exact Steps.refl _
    | vnil =>
      rw [EncP] at hEnc
      obtain ⟨ds, i, hds, hneg, rfl⟩ := hEnc
      simp only [vdepth, List.length_cons] at hdep
      have hd : ¬ stackLimit < bt.length + 1 + 1 := by omega
      rw [show (36 :: (ds ++ [13, 10])) ++ rest = 36 :: (ds ++ 13 :: 10 :: rest) by simp]
      refine Steps.head _ _ _ (len2_ne1 _ _ _)
        (step_value 36 .bulk (by decide) .vnil bf bt (ds ++ 13 :: 10 :: rest) pd lim hd) ?_
      rw [tagFrames, setTopResult]
      simp only [List.cons_append, List.nil_append]
      refine Steps.head _ _ _ (len2_ne1 _ _ _)
        (step_int ds i hds .vnil ⟨.parseBulk, .vnil⟩ (⟨bf.code, .vnil⟩ :: bt) rest pd lim) ?_
      rw [setTopResult]
      refine Steps.head _ _ _ (len2_ne1 _ _ _)
        (step_bulkHdr_neg i hneg ⟨bf.code, .vnil⟩ bt ⟨rest, pd⟩ lim) ?_
      exact Steps.refl _
    | vbytes p =>
      rw [EncP] at hEnc
      obtain ⟨ds, hds, hlim, rfl⟩ := hEnc
      simp only [vdepth, List.length_cons] at hdep
      have hd : ¬ stackLimit < bt.length + 1 + 1 := by omega
      rw [show (36 :: (ds ++ 13 :: 10 :: (p ++ [13, 10]))) ++ rest =
        36 :: (ds ++ 13 :: 10 :: (p ++ 13 :: 10 :: rest)) by simp]
      refine Steps.head _ _ _ (len2_ne1 _ _ _)
        (step_value 36 .bulk (by decide) .vnil bf bt
          (ds ++ 13 :: 10 :: (p ++ 13 :: 10 :: rest)) pd lim hd) ?_
      rw [tagFrames, setTopResult]
      simp only [List.cons_append, List.nil_append]
      refine Steps.head _ _ _ (len2_ne1 _ _ _)
        (step_int ds ((p.length : Int)) hds .vnil ⟨.parseBulk, .vnil⟩ (⟨bf.code, .vnil⟩ :: bt)
          (p ++ 13 :: 10 :: rest) pd lim) ?_
      rw [setTopResult]
      have hn : ¬ ((p.length : Int)) < 0 := by omega
      refine Steps.head _ _ _ (len2_ne1 _ _ _)
        (step_bulkHdr_in ((p.length : Int)) lim hn hlim ⟨bf.code, .vnil⟩ bt
          ⟨p ++ 13 :: 10 :: rest, pd⟩) ?_
      rw [setTopResult, show ((p.length : Int)).toNat = p.length by omega]
      refine Steps.head _ _ _ (len2_ne1 _ _ _)
        (step_bulkN_full [] p .vnil ⟨bf.code, .vnil⟩ bt rest pd lim) ?_
      rw [setTopResult, List.nil_append]
      exact Steps.refl _
    | varr xs =>
      rw [EncP] at hEnc
      obtain ⟨ds, tail, hds, hne, hEncL, rfl⟩ := hEnc
      simp only [vdepth, List.length_cons] at hdep
      have hd : ¬ stackLimit < bt.length + 1 + 1 := by omega
      rw [show (42 :: (ds ++ 13 :: 10 :: tail)) ++ rest =
        42 :: (ds ++ 13 :: 10 :: (tail ++ rest)) by simp]
      refine Steps.head _ _ _ (len2_ne1 _ _ _)
        (step_value 42 .arr (by decide) .vnil bf bt
          (ds ++ 13 :: 10 :: (tail ++ rest)) pd lim hd) ?_
      rw [tagFrames, setTopResult]
      simp only [List.cons_append, List.nil_append]
      refine Steps.head _ _ _ (len2_ne1 _ _ _)
        (step_int ds ((xs.length : Int)) hds .vnil ⟨.parseArray, .vnil⟩ (⟨bf.code, .vnil⟩ :: bt)
          (tail ++ rest) pd lim) ?_
      rw [setTopResult]
      have hn : ¬ ((xs.length : Int)) < 0 := by omega
      refine Steps.head _ _ _ (len2_ne1 _ _ _)
        (step_array ((xs.length : Int)) hn ⟨bf.code, .vnil⟩ bt ⟨tail ++ rest, pd⟩ lim) ?_
      rw [setTopResult]
      have htail : tail.length < N := by
        have hlen := hN
        simp only [List.length_cons, List.length_append] at hlen
        omega
      have hff := fields_steps lim N (fun m hm => IH m hm) xs tail hEncL htail hne
        [] bf.code bt rest pd (by omega)
      rw [List.nil_append] at hff
      exact hff

/-- Every result-slot write of a step goes to the frame immediately below the
executing frame: `pop` writes there, and so does the array handler's direct
accumulator store. -/
theorem stepTopW_writes_below (p : RespParser) :
    ∀ ev ∈ (stepTopW p).2, ev.target = p.stack.length - 1 := by
  rcases p with ⟨stack, rdr, lim⟩
  cases stack with
  | nil => simp [stepTopW]
  | cons fr below =>
    rcases fr with ⟨fc, fres⟩
    cases fc with
    | root => simp [stepTopW]
    | parseValue =>
      by_cases hd : stackLimit < below.length + 1
      · simp [stepTopW, hd]
      · cases hr : Rdr.ReadN rdr 1 with
        | error out => simp [stepTopW, hd, hr]
        | ok pr =>
          rcases pr with ⟨out, r1⟩
          cases below with
          | nil =>
            simp only [stepTopW, hr]
            split <;> simp
          | cons b1 bt =>
            simp only [List.length_cons] at hd
            cases ht : tagOf (out.head?.getD 0) with
            | none => simp [stepTopW, hd, hr, ht, WEv.target]
            | some t => cases t <;> simp [stepTopW, hd, hr, ht, WEv.target]
    | parseSimpleString asError =>
      cases hr : Rdr.ReadLine rdr with
      | none => simp [stepTopW, hr]
      | some pr =>
        rcases pr with ⟨l, r1⟩
        cases below with
        | nil => simp [stepTopW, hr]
        | cons b1 bt => simp [stepTopW, hr, WEv.target]
    | parseInt =>
      cases hr : Rdr.ReadLine rdr with
      | none => simp [stepTopW, hr]
      | some pr =>
        rcases pr with ⟨l, r1⟩
        cases ha : goAtoi l with
        | none => simp [stepTopW, hr, ha]
        | some i =>
          cases below with
          | nil => simp [stepTopW, hr, ha]
          | cons b1 bt => simp [stepTopW, hr, ha, WEv.target]
    | parseBulk =>
      cases fres with
      | vint n =>
        cases below with
        | nil => simp [stepTopW]
        | cons b1 bt =>
          by_cases hn : n < 0
          · simp [stepTopW, if_pos hn, WEv.target]
          · by_cases hl : n ≤ lim
            · simp [stepTopW, if_neg hn, if_pos hl, WEv.target]
            · simp [stepTopW, if_neg hn, if_neg hl, WEv.target]
      | vnil => simp [stepTopW]
      | vstr s => simp [stepTopW]
      | verr s => simp [stepTopW]
      | vbytes b => simp [stepTopW]
      | varr xs => simp [stepTopW]
    | parseBulkN accum n =>
      cases hr : Rdr.ReadN rdr n with
      | ok pr =>
        rcases pr with ⟨out, r1⟩
        cases below with
        | nil => simp [stepTopW, hr]
        | cons b1 bt => simp [stepTopW, hr, WEv.target]
      | error out =>
        cases below with
        | nil => simp [stepTopW, hr]
        | cons b1 bt => simp [stepTopW, hr, WEv.target]
    | parseArray =>
      cases fres with
      | vint n =>
        cases below with
        | nil => simp [stepTopW]
        | cons b1 bt =>
          by_cases hn : n < 0
          · simp [stepTopW, if_pos hn, WEv.target]
          · simp [stepTopW, if_neg hn, WEv.target]
      | vnil => simp [stepTopW]
      | vstr s => simp [stepTopW]
      | verr s => simp [stepTopW]
      | vbytes b => simp [stepTopW]
      | varr xs => simp [stepTopW]
    | parseNArrayFields n =>
      cases below with
      | nil => simp [stepTopW]
      | cons b1 bt =>
        rcases b1 with ⟨bc, bres⟩
        cases bres with
        | varr xs =>
          by_cases hn : 1 < n
          · simp [stepTopW, if_pos hn, WEv.target]
          · simp [stepTopW, if_neg hn, WEv.target]
        | vnil => simp [stepTopW]
        | vint i => simp [stepTopW]
        | vstr s => simp [stepTopW]
        | verr s => simp [stepTopW]
        | vbytes b => simp [stepTopW]

/-- One step fails with the protocol error exactly on an unrecognized tag
byte, and with the numeric-parse error exactly on a non-numeric complete
line. -/
theorem step_structural_iff (p : RespParser) :
    ((∃ p1, stepTop p = .fail .ProtocolErr p1) ↔ malformedTag p) ∧
    ((∃ p1, stepTop p = .fail .AtoiErr p1) ↔ malformedInt p) := by
  rcases p with ⟨stack, rdr, lim⟩
  cases stack with
  | nil => simp [stepTop, stepTopW, malformedTag, malformedInt]
  | cons fr below =>
    rcases fr with ⟨fc, fres⟩
    cases fc with
    | root => simp [stepTop, stepTopW, malformedTag, malformedInt]
    | parseValue =>
      rcases rdr with ⟨buf, pd⟩
      cases below with
      | nil =>
        cases buf with
        | nil =>
          have hr : Rdr.ReadN ⟨([] : List Nat), pd⟩ 1 = .error [] := by
            unfold Rdr.ReadN
            rw [if_neg (by simp)]
          simp [stepTop, stepTopW, malformedTag, malformedInt, stackLimit, hr]
        | cons c cs =>
          have hr : Rdr.ReadN ⟨c :: cs, pd⟩ 1 = .ok ([c], ⟨cs, pd⟩) := by
            unfold Rdr.ReadN
            rw [if_pos (by simp)]
            rfl
          simp [stepTop, stepTopW, malformedTag, malformedInt, stackLimit, hr]
      | cons b1 bt =>
        by_cases hd : stackLimit < bt.length + 1 + 1
        · simp [stepTop, stepTopW, malformedTag, malformedInt, hd]
        · cases buf with
          | nil =>
            have hr : Rdr.ReadN ⟨([] : List Nat), pd⟩ 1 = .error [] := by
              unfold Rdr.ReadN
              rw [if_neg (by simp)]
            simp [stepTop, stepTopW, malformedTag, malformedInt, hd, hr]
          | cons c cs =>
            have hr : Rdr.ReadN ⟨c :: cs, pd⟩ 1 = .ok ([c], ⟨cs, pd⟩) := by
              unfold Rdr.ReadN
              rw [if_pos (by simp)]
              rfl
            cases ht : tagOf c with
            | none =>
              simp [stepTop, stepTopW, malformedTag, malformedInt, hd, hr, ht]
            | some t =>
              cases t <;>
                simp [stepTop, stepTopW, malformedTag, malformedInt, hd, hr, ht]
    | parseSimpleString asError =>
      cases hr : Rdr.ReadLine rdr with
      | none => simp [stepTop, stepTopW, malformedTag, malformedInt, hr]
      | some pr =>
        rcases pr with ⟨l, r1⟩
        cases below with
        | nil => simp [stepTop, stepTopW, malformedTag, malformedInt, hr]
        | cons b1 bt => simp [stepTop, stepTopW, malformedTag, malformedInt, hr]
    | parseInt =>
      cases hr : Rdr.ReadLine rdr with
      | none => simp [stepTop, stepTopW, malformedTag, malformedInt, hr]
      | some pr =>
        rcases pr with ⟨l, r1⟩
        cases ha : goAtoi l with
        | none => simp [stepTop, stepTopW, malformedTag, malformedInt, hr, ha]
        | some i =>
          cases below with
          | nil => simp [stepTop, stepTopW, malformedTag, malformedInt, hr, ha]
          | cons b1 bt => simp [stepTop, stepTopW, malformedTag, malformedInt, hr, ha]
    | parseBulk =>
      cases fres with
      | vint n =>
        cases below with
        | nil => simp [stepTop, stepTopW, malformedTag, malformedInt]
        | cons b1 bt =>
          by_cases hn : n < 0
          · simp [stepTop, stepTopW, malformedTag, malformedInt, hn]
          · by_cases hl : n ≤ lim
            · simp [stepTop, stepTopW, malformedTag, malformedInt, hn, hl]
            · simp [stepTop, stepTopW, malformedTag, malformedInt, hn, hl]
      | vnil => simp [stepTop, stepTopW, malformedTag, malformedInt]
      | vstr s => simp [stepTop, stepTopW, malformedTag, malformedInt]
      | verr s => simp [stepTop, stepTopW, malformedTag, malformedInt]
      | vbytes b => simp [stepTop, stepTopW, malformedTag, malformedInt]
      | varr xs => simp [stepTop, stepTopW, malformedTag, malformedInt]
    | parseBulkN accum n =>
      cases hr : Rdr.ReadN rdr n with
      | ok pr =>
        rcases pr with ⟨out, r1⟩
        cases below with
        | nil => simp [stepTop, stepTopW, malformedTag, malformedInt, hr]
        | cons b1 bt => simp [stepTop, stepTopW, malformedTag, malformedInt, hr]
      | error out =>
        cases below with
        | nil => simp [stepTop, stepTopW, malformedTag, malformedInt, hr]
        | cons b1 bt => simp [stepTop, stepTopW, malformedTag, malformedInt, hr]
    | parseArray =>
      cases fres with
      | vint n =>
        cases below with
        | nil => simp [stepTop, stepTopW, malformedTag, malformedInt]
        | cons b1 bt =>
          by_cases hn : n < 0
          · simp [stepTop, stepTopW, malformedTag, malformedInt, hn]
          · simp [stepTop, stepTopW, malformedTag, malformedInt, hn]
      | vnil => simp [stepTop, stepTopW, malformedTag, malformedInt]
      | vstr s => simp [stepTop, stepTopW, malformedTag, malformedInt]
      | verr s => simp [stepTop, stepTopW, malformedTag, malformedInt]
      | vbytes b => simp [stepTop, stepTopW, malformedTag, malformedInt]
      | varr xs => simp [stepTop, stepTopW, malformedTag, malformedInt]
    | parseNArrayFields n =>
      cases below with
      | nil => simp [stepTop, stepTopW, malformedTag, malformedInt]
      | cons b1 bt =>
        rcases b1 with ⟨bc, bres⟩
        cases bres with
        | varr xs =>
          by_cases hn : 1 < n
          · simp [stepTop, stepTopW, malformedTag, malformedInt, hn]
          · simp [stepTop, stepTopW, malformedTag, malformedInt, hn]
        | vnil => simp [stepTop, stepTopW, malformedTag, malformedInt]
        | vint i => simp [stepTop, stepTopW, malformedTag, malformedInt]
        | vstr s => simp [stepTop, stepTopW, malformedTag, malformedInt]
        | verr s => simp [stepTop, stepTopW, malformedTag, malformedInt]
        | vbytes b => simp [stepTop, stepTopW, malformedTag, malformedInt]

/-- A chunk delivered to an empty fresh source is simply buffered. -/
theorem feed_empty (bs : List Nat) : Rdr.feed ⟨[], 0⟩ bs = ⟨bs, 0⟩ := by
  unfold Rdr.feed
  by_cases h : bs.length ≤ 0
  · rw [if_pos h]
    have hb : bs = [] := List.length_eq_zero.mp (by omega)
    subst hb
    rfl
  · rw [if_neg h]
    simp

/-- A freshly reset parser fed one chunk. -/
theorem startParser_eq (lim : Int) (bs : List Nat) :
    startParser lim bs =
      ⟨[⟨.parseValue, .vnil⟩, ⟨.root, .vnil⟩], ⟨bs, 0⟩, lim⟩ := by
  unfold startParser initParser RespParser.feedP
  rw [feed_empty]

/-- C1 (amended: every array must carry a positive declared count matching
its elements, and nesting must stay within the recursion ceiling): running
the parser to completion on a valid single-chunk RESP encoding of any of the
five types yields exactly the corresponding typed value with the stack back
at depth 1. The spec's example `*2\r\n$3\r\nfoo\r\n$3\r\nbar\r\n` is the
witness. -/
theorem C1_valid_encoding_parses (lim : Int) (v : RValue) (bs : List Nat)
    (hEnc : EncP lim v bs) (hdep : vdepth v + 2 ≤ stackLimit) :
    ∃ t, Runs (startParser lim bs) (.done t) ∧ t.stack.length = 1 ∧ t.Result = v := by
  have hmain := parseValue_steps lim bs.length v bs (le_refl _) hEnc
    [⟨.root, .vnil⟩] [] 0 (by simp)
    (by simp only [List.length_cons, List.length_nil]; omega)
  rw [List.append_nil] at hmain
  rw [startParser_eq]
  refine ⟨⟨[⟨.root, v⟩], ⟨[], 0⟩, lim⟩, ?_, rfl, rfl⟩
  exact steps_runs _ _ _ hmain (Runs.done _ rfl)

/-- C1 witness: the spec's concrete example parses to
Array[Bulk "foo", Bulk "bar"] at depth 1. -/
theorem C1_witness :
    ∃ t, Runs (startParser 1024 exampleFooBar) (.done t) ∧ t.stack.length = 1 ∧
      t.Result = .varr [.vbytes [102, 111, 111], .vbytes [98, 97, 114]] := by
  refine C1_valid_encoding_parses 1024
    (.varr [.vbytes [102, 111, 111], .vbytes [98, 97, 114]]) exampleFooBar ?_ (by decide)
  rw [EncP]
  refine ⟨[50], [36, 51, 13, 10, 102, 111, 111, 13, 10, 36, 51, 13, 10, 98, 97, 114, 13, 10],
    rfl, by simp, ?_, rfl⟩
  rw [EncLP]
  refine ⟨[36, 51, 13, 10, 102, 111, 111, 13, 10], [36, 51, 13, 10, 98, 97, 114, 13, 10],
    ?_, ?_, rfl⟩
  · rw [EncP]
    exact ⟨[51], rfl, by decide, rfl⟩
  · rw [EncLP]
    refine ⟨[36, 51, 13, 10, 98, 97, 114, 13, 10], [], ?_, rfl, by simp⟩
    rw [EncP]
    exact ⟨[51], rfl, by decide, rfl⟩

/-- C1 counterexample: the claim as stated is false on the code. The valid
five-type encoding `*0\r\n` (empty array) never completes: instead of
producing the empty array the parser starts decoding a phantom element and
reports that it needs more data. -/
theorem C1_counterexample : ¬ ∃ t, Runs (startParser 1024 star0) (.done t) := by
  rintro ⟨t, ht⟩
  have hrun : Runs (startParser 1024 star0)
      (.err .ErrShortRead ⟨[⟨.parseValue, .vnil⟩, ⟨.parseNArrayFields 0, .vnil⟩,
        ⟨.root, .varr []⟩], ⟨[], 0⟩, 1024⟩) :=
    runF_sound 20 _ _ rfl (by simp)
  cases runs_det _ _ _ ht hrun

/-- C2: chunking never changes the outcome. From a fresh parser, delivering
any chunk sequence with a run call after each chunk (resuming across each
need-more-data signal) completes with value `v` exactly when delivering the
whole byte sequence as a single chunk does — for arbitrary byte sequences
and arbitrary splits, including one byte at a time. -/
theorem C2_chunking_equivalence (lim : Int) (cs : List (List Nat)) (v : RValue) :
    CRun cs (initParser lim) v ↔
      (cs ≠ [] ∧ CompletesTo (startParser lim cs.flatten) v) :=
  crun_iff_single cs (initParser lim) v

/-- C3 (code bug): on input `*0\r\n` the parser does not complete with an
empty array; it pushes a field parse for a phantom element and starves, and
if another value (`+OK\r\n`) follows it is wrongly absorbed as that array's
element. -/
theorem C3_empty_array_bug :
    runF 20 (startParser 1024 star0) =
      .err .ErrShortRead ⟨[⟨.parseValue, .vnil⟩, ⟨.parseNArrayFields 0, .vnil⟩,
        ⟨.root, .varr []⟩], ⟨[], 0⟩, 1024⟩ ∧
    runF 20 (startParser 1024 (star0 ++ [43, 79, 75, 13, 10])) =
      .done ⟨[⟨.root, .varr [.vstr [79, 75]]⟩], ⟨[], 0⟩, 1024⟩ :=
  ⟨rfl, rfl⟩

/-- C4 (code bug): on input `*-1\r\n` the parser does not produce the absent
array; the array handler hits Go's `make` with a negative capacity, a
runtime panic, modelled as the fatal `PanicErr`. -/
theorem C4_negative_array_panics :
    runF 20 (startParser 1024 starNeg1) =
      .err .PanicErr ⟨[⟨.parseArray, .vint (-1)⟩, ⟨.root, .vnil⟩], ⟨[], 0⟩, 1024⟩ :=
  rfl

/-- C5: the bulk header's three behaviors, over any parser state. A negative
declared length pops the absent bulk with the source untouched; a length
within the capture limit installs a payload reader that, with the payload
and terminator buffered, consumes exactly the `n` payload bytes plus the
2-byte terminator and pops the payload; a length over the limit buffers
nothing and discards exactly `n + 2` bytes from the source, popping the
declared length only. -/
theorem C5_bulk_header_semantics (lim : Int) (bf : stackFrame)
    (bt : List stackFrame) (r : Rdr) :
    (∀ n : Int, n < 0 →
      stepTop ⟨⟨.parseBulk, .vint n⟩ :: bf :: bt, r, lim⟩ =
        .ok ⟨setTopResult (bf :: bt) .vnil, r, lim⟩) ∧
    (∀ n : Int, ¬ n < 0 → n ≤ lim →
      stepTop ⟨⟨.parseBulk, .vint n⟩ :: bf :: bt, r, lim⟩ =
        .ok ⟨⟨.parseBulkN [] n.toNat, .vnil⟩ :: setTopResult (bf :: bt) .vnil, r, lim⟩) ∧
    (∀ (p rest : List Nat) (pd : Nat) (fres : RValue),
      stepTop ⟨⟨.parseBulkN [] p.length, fres⟩ :: bf :: bt,
          ⟨p ++ 13 :: 10 :: rest, pd⟩, lim⟩ =
        .ok ⟨setTopResult (bf :: bt) (.vbytes p), ⟨rest, pd⟩, lim⟩) ∧
    (∀ n : Int, ¬ n < 0 → ¬ n ≤ lim →
      stepTop ⟨⟨.parseBulk, .vint n⟩ :: bf :: bt, r, lim⟩ =
        .ok ⟨setTopResult (bf :: bt) (.vint n), r.Discard ((n + 2).toNat), lim⟩) := by
  refine ⟨fun n hn => step_bulkHdr_neg n hn bf bt r lim,
    fun n hn hl => step_bulkHdr_in n lim hn hl bf bt r,
    fun p rest pd fres => ?_,
    fun n hn hl => step_bulkHdr_over n lim hn hl bf bt r⟩
  have := step_bulkN_full [] p fres bf bt rest pd lim
  rwa [List.nil_append] at this

/-- C5 witness: the three behaviors at concrete inputs with capture limit
10: length -1 pops nil; length 3 installs the payload reader which consumes
`foo` plus terminator; length 20 pops the length and schedules a 22-byte
discard. -/
theorem C5_witness :
    stepTop ⟨[⟨.parseBulk, .vint (-1)⟩, ⟨.root, .vnil⟩], ⟨[], 0⟩, 10⟩ =
      .ok ⟨[⟨.root, .vnil⟩], ⟨[], 0⟩, 10⟩ ∧
    stepTop ⟨[⟨.parseBulk, .vint 3⟩, ⟨.root, .vnil⟩], ⟨[], 0⟩, 10⟩ =
      .ok ⟨[⟨.parseBulkN [] 3, .vnil⟩, ⟨.root, .vnil⟩], ⟨[], 0⟩, 10⟩ ∧
    stepTop ⟨[⟨.parseBulkN [] 3, .vnil⟩, ⟨.root, .vnil⟩],
        ⟨[102, 111, 111, 13, 10], 0⟩, 10⟩ =
      .ok ⟨[⟨.root, .vbytes [102, 111, 111]⟩], ⟨[], 0⟩, 10⟩ ∧
    stepTop ⟨[⟨.parseBulk, .vint 20⟩, ⟨.root, .vnil⟩], ⟨[], 0⟩, 10⟩ =
      .ok ⟨[⟨.root, .vint 20⟩], ⟨[], 22⟩, 10⟩ := by
  obtain ⟨h1, h2, h3, h4⟩ := C5_bulk_header_semantics 10 ⟨.root, .vnil⟩ [] ⟨[], 0⟩
  exact ⟨h1 (-1) (by decide), h2 3 (by decide) (by decide),
    h3 [102, 111, 111] [] 0 .vnil, h4 20 (by decide) (by decide)⟩

/-- C6: a short payload read appends exactly the bytes obtained to the
frame's accumulator, discards exactly those bytes from the source, and
reinstalls the frame for exactly the remaining count; and across any
sequence of such shortfalls (any chunking of payload plus terminator) the
completed result is the full payload. -/
theorem C6_short_read_resumption (lim : Int) (bf : stackFrame)
    (bt : List stackFrame) :
    (∀ (accum : List Nat) (n : Nat) (fres : RValue) (b : List Nat) (pd : Nat),
      b.length < n →
      stepTop ⟨⟨.parseBulkN accum n, fres⟩ :: bf :: bt, ⟨b, pd⟩, lim⟩ =
        .fail .ErrShortRead ⟨⟨.parseBulkN (accum ++ b) (n - b.length), .vnil⟩ ::
          setTopResult (bf :: bt) .vnil, Rdr.Discard ⟨b, pd⟩ b.length, lim⟩) ∧
    (∀ (p : List Nat) (cs : List (List Nat)), cs.flatten = p ++ [13, 10] → cs ≠ [] →
      CRun cs ⟨[⟨.parseBulkN [] p.length, .vnil⟩, ⟨.root, .vnil⟩], ⟨[], 0⟩, lim⟩
        (.vbytes p)) := by
  constructor
  · intro accum n fres b pd hlt
    have hr : Rdr.ReadN ⟨b, pd⟩ n = .error b := by
      simp only [Rdr.ReadN]
      rw [if_neg (by omega : ¬ n ≤ b.length)]
    simp only [stepTop, stepTopW, hr]
  · intro p cs hflat hne
    rw [crun_iff_single]
    refine ⟨hne, ?_⟩
    rw [hflat]
    have hfeed : RespParser.feedP
        ⟨[⟨.parseBulkN [] p.length, .vnil⟩, ⟨.root, .vnil⟩], ⟨[], 0⟩, lim⟩
        (p ++ [13, 10]) =
        ⟨[⟨.parseBulkN [] p.length, .vnil⟩, ⟨.root, .vnil⟩], ⟨p ++ [13, 10], 0⟩, lim⟩ := by
      unfold RespParser.feedP
      rw [feed_empty]
    rw [hfeed]
    refine ⟨⟨[⟨.root, .vbytes p⟩], ⟨[], 0⟩, lim⟩, ?_, rfl⟩
    refine Runs.step _ _ _ (by simp) ?_ (Runs.done _ rfl)
    have := step_bulkN_full [] p .vnil ⟨.root, .vnil⟩ [] [] 0 lim
    rw [List.nil_append] at this
    exact this

/-- C6 witness: a concrete short read (1 of 2 remaining bytes buffered)
retains the byte and requests exactly the remainder; a concrete 4-chunk
split of `foo\r\n` completes with Bulk "foo". -/
theorem C6_witness :
    stepTop ⟨[⟨.parseBulkN [102] 2, .vnil⟩, ⟨.root, .vnil⟩], ⟨[111], 0⟩, 1024⟩ =
      .fail .ErrShortRead ⟨[⟨.parseBulkN [102, 111] 1, .vnil⟩, ⟨.root, .vnil⟩],
        ⟨[], 0⟩, 1024⟩ ∧
    CRun [[102], [111], [111, 13], [10]]
      ⟨[⟨.parseBulkN [] 3, .vnil⟩, ⟨.root, .vnil⟩], ⟨[], 0⟩, 1024⟩
      (.vbytes [102, 111, 111]) := by
  obtain ⟨h1, h2⟩ := C6_short_read_resumption 1024 ⟨.root, .vnil⟩ []
  constructor
  · exact h1 [102] 2 .vnil [111] 0 (by decide)
  · exact h2 [102, 111, 111] [[102], [111], [111, 13], [10]] (by decide) (by simp)

/-- Wrapping in a single-element array: one more `*1\r\n` header around a
valid encoding encodes the one-element array. -/
theorem encp_wrap (lim : Int) (v : RValue) (bs : List Nat) (h : EncP lim v bs) :
    EncP lim (.varr [v]) (42 :: 49 :: 13 :: 10 :: bs) := by
  rw [EncP]
  refine ⟨[49], bs, rfl, by simp, ?_, rfl⟩
  rw [EncLP]
  exact ⟨bs, [], h, rfl, by simp⟩

/-- Parsing one `*1\r\n` array header: three machine steps that install the
accumulator below and a field loop for one element. -/
theorem arr1_steps (lim : Int) (s : List stackFrame) (rest : List Nat) (pd : Nat)
    (hs : s ≠ []) (hd : ¬ stackLimit < s.length + 1) :
    Steps ⟨⟨.parseValue, .vnil⟩ :: s, ⟨42 :: 49 :: 13 :: 10 :: rest, pd⟩, lim⟩
      ⟨⟨.parseValue, .vnil⟩ :: ⟨.parseNArrayFields 1, .vnil⟩ ::
        setTopResult s (.varr []), ⟨rest, pd⟩, lim⟩ := by
  rcases s with _ | ⟨bf, bt⟩
  · exact absurd rfl hs
  simp only [List.length_cons] at hd
  refine Steps.head _ _ _ (len2_ne1 _ _ _)
    (step_value 42 .arr (by decide) .vnil bf bt (49 :: 13 :: 10 :: rest) pd lim hd) ?_
  rw [tagFrames, setTopResult]
  simp only [List.cons_append, List.nil_append]
  refine Steps.head _ _ _ (len2_ne1 _ _ _)
    (step_int [49] 1 rfl .vnil ⟨.parseArray, .vnil⟩ (⟨bf.code, .vnil⟩ :: bt) rest pd lim) ?_
  rw [setTopResult]
  refine Steps.head _ _ _ (len2_ne1 _ _ _)
    (step_array 1 (by decide) ⟨bf.code, .vnil⟩ bt ⟨rest, pd⟩ lim) ?_
  rw [setTopResult]
  exact Steps.refl _

/-- C7: six nested arrays (the deepest nesting the 8-frame stack admits)
parse to completion; seven nested arrays fail with the recursion-limit
error before the innermost value's tag is even read; and whenever a value
dispatcher sits on a stack deeper than the ceiling, feeding any further
chunk and running again returns the recursion-limit error with the state
unchanged — the failure is permanent and independent of chunking. -/
theorem C7_recursion_limit :
    (∃ t, Runs (startParser 1024 nested6) (.done t) ∧ t.stack.length = 1 ∧
      t.Result = deep6) ∧
    Runs (startParser 1024 nested7)
      (.err .RecursionLimitErr
        ⟨[⟨.parseValue, .vnil⟩, ⟨.parseNArrayFields 1, .vnil⟩,
          ⟨.parseNArrayFields 1, .varr []⟩, ⟨.parseNArrayFields 1, .varr []⟩,
          ⟨.parseNArrayFields 1, .varr []⟩, ⟨.parseNArrayFields 1, .varr []⟩,
          ⟨.parseNArrayFields 1, .varr []⟩, ⟨.parseNArrayFields 1, .varr []⟩,
          ⟨.root, .varr []⟩], ⟨[58, 53, 13, 10], 0⟩, 1024⟩) ∧
    (∀ (p : RespParser) (fres : RValue) (s : List stackFrame) (e : List Nat),
      p.stack = ⟨.parseValue, fres⟩ :: s → stackLimit < p.stack.length →
      Runs (p.feedP e) (.err .RecursionLimitErr (p.feedP e))) := by
  refine ⟨?_, ?_, ?_⟩
  · -- six levels parse: a valid encoding at exactly the admissible depth
    have hbase : EncP 1024 (.vint 5) [58, 53, 13, 10] := by
      rw [EncP]
      exact Or.inl ⟨[53], rfl, rfl⟩
    have hE : EncP 1024 deep6 nested6 :=
      encp_wrap 1024 _ _ (encp_wrap 1024 _ _ (encp_wrap 1024 _ _ (encp_wrap 1024 _ _
        (encp_wrap 1024 _ _ (encp_wrap 1024 _ _ hbase)))))
    have hmain := parseValue_steps 1024 nested6.length deep6 nested6 (le_refl _) hE
      [⟨.root, .vnil⟩] [] 0 (by simp) (by decide)
    rw [List.append_nil] at hmain
    rw [startParser_eq]
    refine ⟨⟨[⟨.root, deep6⟩], ⟨[], 0⟩, 1024⟩, ?_, rfl, rfl⟩
    exact steps_runs _ _ _ hmain (Runs.done _ rfl)
  · -- seven levels: the seventh element dispatcher exceeds the ceiling
    rw [startParser_eq]
    have hsteps : Steps ⟨[⟨.parseValue, .vnil⟩, ⟨.root, .vnil⟩], ⟨nested7, 0⟩, 1024⟩
        ⟨[⟨.parseValue, .vnil⟩, ⟨.parseNArrayFields 1, .vnil⟩,
          ⟨.parseNArrayFields 1, .varr []⟩, ⟨.parseNArrayFields 1, .varr []⟩,
          ⟨.parseNArrayFields 1, .varr []⟩, ⟨.parseNArrayFields 1, .varr []⟩,
          ⟨.parseNArrayFields 1, .varr []⟩, ⟨.parseNArrayFields 1, .varr []⟩,
          ⟨.root, .varr []⟩], ⟨[58, 53, 13, 10], 0⟩, 1024⟩ := by
      refine steps_trans _ _ _ (arr1_steps 1024 _ _ _ (by simp) (by decide)) ?_
      refine steps_trans _ _ _ (arr1_steps 1024 _ _ _ (by simp) (by decide)) ?_
      refine steps_trans _ _ _ (arr1_steps 1024 _ _ _ (by simp) (by decide)) ?_
      refine steps_trans _ _ _ (arr1_steps 1024 _ _ _ (by simp) (by decide)) ?_
      refine steps_trans _ _ _ (arr1_steps 1024 _ _ _ (by simp) (by decide)) ?_
      refine steps_trans _ _ _ (arr1_steps 1024 _ _ _ (by simp) (by decide)) ?_
      refine steps_trans _ _ _ (arr1_steps 1024 _ _ _ (by simp) (by decide)) ?_
      exact Steps.refl _
    exact steps_runs _ _ _ hsteps (Runs.fail _ _ _ (by decide) rfl)
  · intro p fres s e hstack hdepth
    have hlen : (p.feedP e).stack.length ≠ 1 := by
      rw [feedP_stack]
      simp only [stackLimit] at hdepth
      omega
    have hstep : stepTop (p.feedP e) = .fail .RecursionLimitErr (p.feedP e) := by
      rcases p with ⟨stack, rdr, l⟩
      simp only at hstack
      subst hstack
      simp only [RespParser.feedP, stepTop, stepTopW]
      rw [if_pos (by simpa using hdepth)]
    exact Runs.fail _ _ _ hlen hstep

/-- C7 witness: a stack of nine frames with a value dispatcher on top fails
with the recursion-limit error even after two more bytes arrive. -/
theorem C7_witness :
    Runs ((⟨⟨.parseValue, .vnil⟩ :: List.replicate 8 ⟨.root, .vnil⟩, ⟨[], 0⟩, 0⟩ :
        RespParser).feedP [42, 49])
      (.err .RecursionLimitErr
        ((⟨⟨.parseValue, .vnil⟩ :: List.replicate 8 ⟨.root, .vnil⟩, ⟨[], 0⟩, 0⟩ :
          RespParser).feedP [42, 49])) :=
  C7_recursion_limit.2.2 _ .vnil (List.replicate 8 ⟨.root, .vnil⟩) [42, 49] rfl
    (by decide)

/-- C8 counterexample: result slots are not written exactly once, and not
only by pops. Parsing `:5\r\n` writes the root slot twice (a nil from the
dispatcher's pop, then the value), and parsing `*1\r\n:5\r\n` performs a
direct, non-pop write (the array handler storing the empty accumulator). -/
theorem C8_counterexample :
    writesTo 1 (runFW 20 (startParser 1024 [58, 53, 13, 10]) []).2 ≠ 1 ∧
    ((runFW 30 (startParser 1024 [42, 49, 13, 10, 58, 53, 13, 10]) []).2.any
      WEv.isDirect) = true := by
  constructor
  · decide
  · rfl

/-- C8 (amended: a frame's result slot may be written several times during a
parse; every write — each pop, and the array handler's direct accumulator
store — targets the frame immediately below the frame being executed, and
the final write before completion leaves the decoded result): every write
event of every step targets depth one below the executing frame, and the
full write trace of `:5\r\n` is the nil pop followed by the value pop into
the root. -/
theorem C8_writes_target_frame_below (p : RespParser) :
    (∀ ev ∈ (stepTopW p).2, ev.target = p.stack.length - 1) ∧
    (runFW 20 (startParser 1024 [58, 53, 13, 10]) []).2 =
      [.viaPop 1 .vnil, .viaPop 1 (.vint 5)] :=
  ⟨stepTopW_writes_below p, rfl⟩

/-- C8 witness: the dispatcher's pop while parsing `:5\r\n` writes one
below the top of the two-frame stack. -/
theorem C8_witness :
    WEv.target (.viaPop 1 .vnil) =
      (startParser 1024 [58, 53, 13, 10]).stack.length - 1 :=
  (C8_writes_target_frame_below (startParser 1024 [58, 53, 13, 10])).1
    (.viaPop 1 .vnil)
    (by rw [show (stepTopW (startParser 1024 [58, 53, 13, 10])).2 =
          [WEv.viaPop 1 .vnil] from rfl]
        exact List.mem_singleton.mpr rfl)

/-- C9: the machine fails with the protocol-violation error exactly when the
dispatcher meets an unrecognized tag byte, and with the numeric-parse
(strconv) error exactly when an integer or length line is complete but
non-numeric; both are fatal (not resumable). run() surfaces the failing
step's error unchanged. -/
theorem C9_structural_errors (p : RespParser) :
    ((∃ p1, stepTop p = .fail .ProtocolErr p1) ↔ malformedTag p) ∧
    ((∃ p1, stepTop p = .fail .AtoiErr p1) ↔ malformedInt p) ∧
    (∀ (er : RErr) (p1 : RespParser), stepTop p = .fail er p1 →
      er = .ProtocolErr ∨ er = .AtoiErr → ¬ er.resumable) := by
  refine ⟨(step_structural_iff p).1, (step_structural_iff p).2, ?_⟩
  intro er p1 h h2
  rcases h2 with rfl | rfl <;> simp [RErr.resumable]

/-- C9 witness: a dispatcher looking at the byte `!` is exactly a malformed
tag, and the protocol violation it raises is not resumable. -/
theorem C9_witness :
    malformedTag ⟨[⟨.parseValue, .vnil⟩, ⟨.root, .vnil⟩], ⟨[33], 0⟩, 0⟩ ∧
    ¬ RErr.resumable .ProtocolErr :=
  ⟨(C9_structural_errors ⟨[⟨.parseValue, .vnil⟩, ⟨.root, .vnil⟩], ⟨[33], 0⟩, 0⟩).1.mp
      ⟨⟨[⟨.root, .vnil⟩], ⟨[], 0⟩, 0⟩, rfl⟩,
    (C9_structural_errors ⟨[⟨.parseValue, .vnil⟩, ⟨.root, .vnil⟩], ⟨[33], 0⟩, 0⟩).2.2
      .ProtocolErr ⟨[⟨.root, .vnil⟩], ⟨[], 0⟩, 0⟩ rfl (Or.inl rfl)⟩

/-- C10: on an array result, `BulkArray` returns one entry per element in
order — the payload for an in-limit bulk, `none` for everything else — and
on a non-array result the type assertion faults (modelled `none`). With
capture limit 3, parsing `*3\r\n$5\r\nhello\r\n$-1\r\n$2\r\nok\r\n` makes
the over-limit bulk and the absent bulk indistinguishable in the
projection. -/
theorem C10_bulk_array_projection :
    (∀ (p : RespParser) (xs : List RValue), p.Result = .varr xs →
      p.BulkArray = some (xs.map projBulk)) ∧
    (∀ p : RespParser, (∀ xs, p.Result ≠ .varr xs) → p.BulkArray = none) ∧
    (∀ x : RValue, (projBulk x = none ↔ ∀ b, x ≠ .vbytes b)) ∧
    (Runs (startParser 3 mixedBulk)
      (.done ⟨[⟨.root, .varr [.vint 5, .vnil, .vbytes [111, 107]]⟩], ⟨[], 0⟩, 3⟩) ∧
    (⟨[⟨.root, .varr [.vint 5, .vnil, .vbytes [111, 107]]⟩], ⟨[], 0⟩, 3⟩ :
      RespParser).BulkArray = some [none, none, some [111, 107]] ∧
    (⟨[⟨.root, .vint 7⟩], ⟨[], 0⟩, 3⟩ : RespParser).BulkArray = none) := by
  refine ⟨?_, ?_, ?_, ?_, rfl, rfl⟩
  · intro p xs h
    simp only [RespParser.BulkArray, h]
    rfl
  · intro p h
    unfold RespParser.BulkArray
    cases hres : p.Result with
    | varr xs => exact absurd hres (h xs)
    | vnil => rfl
    | vint i => rfl
    | vstr s => rfl
    | verr s => rfl
    | vbytes b => rfl
  · intro x
    cases x <;> simp [projBulk]
  · have hE : EncP 3 (.varr [.vint 5, .vnil, .vbytes [111, 107]]) mixedBulk := by
      rw [EncP]
      refine ⟨[51], [36, 53, 13, 10, 104, 101, 108, 108, 111, 13, 10,
        36, 45, 49, 13, 10, 36, 50, 13, 10, 111, 107, 13, 10], rfl, by simp, ?_, rfl⟩
      rw [EncLP]
      refine ⟨[36, 53, 13, 10, 104, 101, 108, 108, 111, 13, 10],
        [36, 45, 49, 13, 10, 36, 50, 13, 10, 111, 107, 13, 10], ?_, ?_, rfl⟩
      · rw [EncP]
        exact Or.inr ⟨[53], [104, 101, 108, 108, 111], rfl, rfl, by decide, rfl⟩
      · rw [EncLP]
        refine ⟨[36, 45, 49, 13, 10], [36, 50, 13, 10, 111, 107, 13, 10], ?_, ?_, rfl⟩
        · rw [EncP]
          exact ⟨[45, 49], -1, rfl, by decide, rfl⟩
        · rw [EncLP]
          refine ⟨[36, 50, 13, 10, 111, 107, 13, 10], [], ?_, rfl, by simp⟩
          rw [EncP]
          exact ⟨[50], rfl, by decide, rfl⟩
    have hmain := parseValue_steps 3 mixedBulk.length
      (.varr [.vint 5, .vnil, .vbytes [111, 107]]) mixedBulk (le_refl _) hE
      [⟨.root, .vnil⟩] [] 0 (by simp) (by decide)
    rw [List.append_nil] at hmain
    rw [startParser_eq]
    exact steps_runs _ _ _ hmain (Runs.done _ rfl)

/-- C10 witness: the projection of the mixed parse result via the theorem. -/
theorem C10_witness :
    (⟨[⟨.root, .varr [.vint 5, .vnil, .vbytes [111, 107]]⟩], ⟨[], 0⟩, 3⟩ :
      RespParser).BulkArray =
      some ([RValue.vint 5, RValue.vnil, RValue.vbytes [111, 107]].map projBulk) :=
  C10_bulk_array_projection.1 _ _ rfl
